import Mathlib

/-!
Verification of the block-tridiagonal Gaussian solver of `netlds`
(`src/netlds/inference.py`, `src/netlds/generative.py`).

The scalar type is a general field `K`; the claims about positivity are
stated over `ℝ`.  Per-sequence tensors of shape `[T, d, d]` or `[T, d]` are
modelled as families `ℕ → Mat d K` or `ℕ → Vec d K`, with indices `0 ≤ t < T`
meaningful (0-based, the code's time axis).  The dense `d × d` backend
primitives (`tf.cholesky`, `tf.matrix_triangular_solve`) and the functions of
the module `netlds/chol_utils.py` (`blk_tridiag_chol`, `blk_chol_inv`), whose
source is not part of this development, are modelled from the specification,
as marked in their doc comments.
-/

namespace Netlds

open Matrix

/-- Square `d × d` blocks over the scalar field `K`. -/
abbrev Mat (d : ℕ) (K : Type) := Matrix (Fin d) (Fin d) K

/-- Length-`d` block vectors over `K`. -/
abbrev Vec (d : ℕ) (K : Type) := Fin d → K

variable {d : ℕ} {K : Type} [Field K]

/-! ## Precision assembly (`SmoothingLDS.build_graph`, `precision_matrix` scope) -/

/-- From `src/netlds/inference.py` line 146: the data-dependent diagonal
precision contribution `c_psi_inv[t] = r_psi_sqrt[t] · r_psi_sqrt[t]ᵀ`. -/
def c_psi_inv (r_psi_sqrt : ℕ → Mat d K) (t : ℕ) : Mat d K :=
  r_psi_sqrt t * (r_psi_sqrt t)ᵀ

/-- From `src/netlds/inference.py` line 151: `A Q0inv Aᵀ + Qinv`. -/
def AQ0invA_Qinv (A Q0inv Qinv : Mat d K) : Mat d K := A * Q0inv * Aᵀ + Qinv

/-- From `src/netlds/inference.py` line 154: `A Qinv Aᵀ + Qinv`. -/
def AQinvA_Qinv (A Qinv : Mat d K) : Mat d K := A * Qinv * Aᵀ + Qinv

/-- From `src/netlds/inference.py` line 157: `−A Q0inv`. -/
def AQ0inv (A Q0inv : Mat d K) : Mat d K := -A * Q0inv

/-- From `src/netlds/inference.py` line 158: `−A Qinv`. -/
def AQinv (A Qinv : Mat d K) : Mat d K := -A * Qinv

/-- From `src/netlds/inference.py` lines 162-168: the static part of the
diagonal blocks, the concatenation
`[Q0inv, A Q0inv Aᵀ + Qinv, A Qinv Aᵀ + Qinv, …]` (the third entry is tiled
`T − 2` times, so this 0-based formula is meaningful for `t < T`, `T ≥ 2`). -/
def Sinv_diag_static (A Q0inv Qinv : Mat d K) (t : ℕ) : Mat d K :=
  if t = 0 then Q0inv
  else if t = 1 then AQ0invA_Qinv A Q0inv Qinv
  else AQinvA_Qinv A Qinv

/-- From `src/netlds/inference.py` line 169: diagonal blocks of the assembled
precision matrix, static part plus data-dependent part. -/
def Sinv_diag (A Q0inv Qinv : Mat d K) (r_psi_sqrt : ℕ → Mat d K) (t : ℕ) : Mat d K :=
  Sinv_diag_static A Q0inv Qinv t + c_psi_inv r_psi_sqrt t

/-- From `src/netlds/inference.py` lines 172-176: the `T − 1` sub-diagonal
blocks `[−A Q0inv, −A Qinv, …]` (0-based index `t < T − 1`; block `t` couples
time steps `t` and `t + 1`). -/
def Sinv_ldiag0 (A Q0inv Qinv : Mat d K) (t : ℕ) : Mat d K :=
  if t = 0 then AQ0inv A Q0inv else AQinv A Qinv

/-- From `src/netlds/inference.py` lines 200-203: the information-form
right-hand side `ia[t] = c_psi_inv[t] · m_psi[t]`. -/
def ia (r_psi_sqrt : ℕ → Mat d K) (m_psi : ℕ → Vec d K) (t : ℕ) : Vec d K :=
  c_psi_inv r_psi_sqrt t *ᵥ m_psi t

/-! ## Dense triangular solves (backend primitives)

Modelled from the spec: §4.2 requires all per-block solves to be dense
triangular solves (`tf.matrix_triangular_solve` in the source's backend),
"never explicit matrix inverses".  `fwdSub C b` performs forward substitution
against a lower-triangular `C`; `bwdSub C b` performs backward substitution
against its transpose `Cᵀ`. -/

/-- Modelled from the spec: forward substitution, entry `i` of the solution of
`C x = b` for lower-triangular `C`. -/
def fwdSubAux (C : Mat d K) (b : Vec d K) (i : ℕ) (hi : i < d) : K :=
  (b ⟨i, hi⟩ -
      ∑ j : Fin i, C ⟨i, hi⟩ ⟨j.val, j.isLt.trans hi⟩ * fwdSubAux C b j.val (j.isLt.trans hi)) /
    C ⟨i, hi⟩ ⟨i, hi⟩
termination_by i

/-- Modelled from the spec: forward substitution, solving `C x = b` for
lower-triangular `C`. -/
def fwdSub (C : Mat d K) (b : Vec d K) : Vec d K := fun i => fwdSubAux C b i.val i.isLt

/-- Modelled from the spec: backward substitution against `Cᵀ`, entry `i` of
the solution of `Cᵀ x = b`, recursing downwards from the last entry (the
entries strictly above `i` are enumerated as `d − 1 − j` for `j < d − 1 − i`). -/
def bwdSubGo (C : Mat d K) (b : Vec d K) (i : ℕ) (hi : i < d) : K :=
  (b ⟨i, hi⟩ -
      ∑ j : Fin (d - 1 - i),
        C ⟨d - 1 - j.val, by omega⟩ ⟨i, hi⟩ *
          bwdSubGo C b (d - 1 - j.val) (by omega)) /
    C ⟨i, hi⟩ ⟨i, hi⟩
termination_by d - i
decreasing_by have := j.isLt; omega

/-- Modelled from the spec: backward substitution, solving `Cᵀ x = b` for
lower-triangular `C`. -/
def bwdSub (C : Mat d K) (b : Vec d K) : Vec d K :=
  fun i => bwdSubGo C b i.val i.isLt

/-- Modelled from the spec: §4.1 computes `E = L · (Cᵀ)⁻¹` "by triangular
solve, not explicit inverse"; each row of `E` is a forward substitution of the
matching row of `L` against `C`, so that `E · Cᵀ = L`. -/
def rightSolveT (C L : Mat d K) : Mat d K :=
  Matrix.of fun r => fwdSub C (fun j => L r j)

/-! ## Block-tridiagonal Cholesky (`netlds/chol_utils.py`, not in `src/`) -/

/-- Modelled from the spec: the argument handed to the dense Cholesky at block
`t` by the §4.1 recursion of `blk_tridiag_chol` (whose source,
`netlds/chol_utils.py`, is missing from `src/`): `D_1` at the first block and
`D_t − E_{t−1} E_{t−1}ᵀ` afterwards. -/
def cholArg (chol : Mat d K → Mat d K) (D L : ℕ → Mat d K) : ℕ → Mat d K
  | 0 => D 0
  | t + 1 =>
    let C := chol (cholArg chol D L t)
    let E := rightSolveT C (L t)
    D (t + 1) - E * Eᵀ

/-- Modelled from the spec: diagonal blocks `C_t` produced by
`blk_tridiag_chol` (§4.1), parameterised by the dense backend Cholesky
`chol`. -/
def blk_tridiag_chol_diag (chol : Mat d K → Mat d K) (D L : ℕ → Mat d K) (t : ℕ) : Mat d K :=
  chol (cholArg chol D L t)

/-- Modelled from the spec: sub-diagonal blocks `E_t` produced by
`blk_tridiag_chol` (§4.1), via a triangular solve against `C_t`. -/
def blk_tridiag_chol_offdiag (chol : Mat d K → Mat d K) (D L : ℕ → Mat d K) (t : ℕ) : Mat d K :=
  rightSolveT (blk_tridiag_chol_diag chol D L t) (L t)

/-- Modelled from the spec: `blk_tridiag_chol` (§4.1) returns the pair of
block families `(C, E)` of the block-bidiagonal Cholesky factor. -/
def blk_tridiag_chol (chol : Mat d K → Mat d K) (D L : ℕ → Mat d K) :
    (ℕ → Mat d K) × (ℕ → Mat d K) :=
  (blk_tridiag_chol_diag chol D L, blk_tridiag_chol_offdiag chol D L)

/-! ## Block-triangular solves (`netlds/chol_utils.py`, not in `src/`) -/

/-- Modelled from the spec: `blk_chol_inv` with `lower=True, transpose=False`
(§4.2 forward substitution): `X_1 = C_1⁻¹ B_1`,
`X_t = C_t⁻¹ (B_t − E_{t−1} X_{t−1})`. -/
def blk_chol_inv_lower (C E : ℕ → Mat d K) (B : ℕ → Vec d K) : ℕ → Vec d K
  | 0 => fwdSub (C 0) (B 0)
  | t + 1 => fwdSub (C (t + 1)) (B (t + 1) - E t *ᵥ blk_chol_inv_lower C E B t)

/-- Modelled from the spec: `blk_chol_inv` with `lower=False, transpose=True`
(§4.2 backward substitution), at recursion depth `k` giving block
`T − 1 − k`: `X_T = C_T⁻ᵀ B_T`, `X_t = C_t⁻ᵀ (B_t − E_tᵀ X_{t+1})`. -/
def blk_chol_inv_upperTAux (T : ℕ) (C E : ℕ → Mat d K) (B : ℕ → Vec d K) : ℕ → Vec d K
  | 0 => bwdSub (C (T - 1)) (B (T - 1))
  | k + 1 =>
    bwdSub (C (T - 2 - k)) (B (T - 2 - k) - (E (T - 2 - k))ᵀ *ᵥ blk_chol_inv_upperTAux T C E B k)

/-- Modelled from the spec: `blk_chol_inv` with `lower=False, transpose=True`
(§4.2), block `t` of the solution of `Cᵀ X = B` over `T` blocks. -/
def blk_chol_inv_upperT (T : ℕ) (C E : ℕ → Mat d K) (B : ℕ → Vec d K) (t : ℕ) : Vec d K :=
  blk_chol_inv_upperTAux T C E B (T - 1 - t)

/-! ## Posterior mean, samples, entropy (`SmoothingLDS`) -/

/-- From `src/netlds/inference.py` lines 199-223 (`post_z_means`), with the
missing `blk_chol_inv` modelled from the spec: forward then backward
block-triangular solve of the information form right-hand side `ia`. -/
def post_z_means (chol : Mat d K → Mat d K) (A Q0inv Qinv : Mat d K)
    (r_psi_sqrt : ℕ → Mat d K) (m_psi : ℕ → Vec d K) (T : ℕ) : ℕ → Vec d K :=
  let D := Sinv_diag A Q0inv Qinv r_psi_sqrt
  let L := Sinv_ldiag0 A Q0inv Qinv
  let C := blk_tridiag_chol_diag chol D L
  let E := blk_tridiag_chol_offdiag chol D L
  blk_chol_inv_upperT T C E (blk_chol_inv_lower C E (ia r_psi_sqrt m_psi))

/-- From `src/netlds/inference.py` lines 228-241 (`rands`), with the missing
`blk_chol_inv` modelled from the spec: the whitened noise mapped through the
backward solve against the Cholesky factor. -/
def post_rands (chol : Mat d K → Mat d K) (A Q0inv Qinv : Mat d K)
    (r_psi_sqrt : ℕ → Mat d K) (T : ℕ) (noise : ℕ → Vec d K) : ℕ → Vec d K :=
  let D := Sinv_diag A Q0inv Qinv r_psi_sqrt
  let L := Sinv_ldiag0 A Q0inv Qinv
  let C := blk_tridiag_chol_diag chol D L
  let E := blk_tridiag_chol_offdiag chol D L
  blk_chol_inv_upperT T C E noise

/-- From `src/netlds/inference.py` line 243: `post_z_samples =
post_z_means + rands`; the standard-normal noise tensor (`samples_z`, drawn
outside this pure computation) enters as the explicit argument `noise`. -/
def post_z_samples (chol : Mat d K → Mat d K) (A Q0inv Qinv : Mat d K)
    (r_psi_sqrt : ℕ → Mat d K) (m_psi : ℕ → Vec d K) (T : ℕ) (noise : ℕ → Vec d K) :
    ℕ → Vec d K :=
  fun t =>
    post_z_means chol A Q0inv Qinv r_psi_sqrt m_psi T t +
      post_rands chol A Q0inv Qinv r_psi_sqrt T noise t

/-- From `src/netlds/inference.py` lines 316-329 (`evaluate_entropy`): over a
batch of `N` sequences with Cholesky diagonal blocks `C n t`,
`ln_det = −2 Σ_{t,i} mean_n (log (C n t)_{ii})` and the entropy is
`ln_det / 2 + d·T/2·(1 + log 2π)`. -/
noncomputable def evaluate_entropy (N T : ℕ) (C : Fin N → ℕ → Mat d ℝ) : ℝ :=
  (-2 * ∑ t : Fin T, ∑ i : Fin d, (∑ n : Fin N, Real.log (C n t.val i i)) / N) / 2 +
    (d : ℝ) * (T : ℝ) / 2 * (1 + Real.log (2 * Real.pi))

/-! ## Prior covariance derivations (`generative.py`, `inference.py`) -/

/-- From `src/netlds/generative.py` lines 181-187 (`LDS.initialize_prior_vars`):
`Q = Q_sqrt Q_sqrtᵀ + 1e-6 · I` (the literal `1e-6` modelled as `1/1000000`). -/
def LDS_Q (Q_sqrt : Mat d K) : Mat d K :=
  Q_sqrt * Q_sqrtᵀ + (1 / 1000000 : K) • (1 : Mat d K)

/-- From `src/netlds/generative.py` lines 581-584
(`LDSCoupled.initialize_prior_vars`): `Q = Q_sqrt Q_sqrtᵀ`, with no jitter
term. -/
def LDSCoupled_Q (Q_sqrt : Mat d K) : Mat d K := Q_sqrt * Q_sqrtᵀ

/-- From `src/netlds/inference.py` lines 309-312
(`SmoothingLDS._initialize_model_vars`): `Q = Q_sqrt Q_sqrtᵀ`, with no jitter
term. -/
def SmoothingLDS_Q (Q_sqrt : Mat d K) : Mat d K := Q_sqrt * Q_sqrtᵀ

/-! ## Configuration handling (`SmoothingLDS.__init__` / `build_graph`) -/

/-- Error outcomes of graph construction.  `invalidConfiguration` is the
rejection the specification postulates for `T = 0` or `d = 0`;
`tfInvalidArgument` is the backend error raised by `tf.tile` when its
multiples argument `num_time_pts − 2` is negative. -/
inductive GraphError
  | invalidConfiguration
  | tfInvalidArgument
deriving DecidableEq

/-- From `src/netlds/inference.py` lines 55-63 and 65-96: the constructor
stores the dimensions without validating them, and `build_graph` tiles the
static middle blocks `num_time_pts − 2` times (lines 162-176), which is a
backend error when `T < 2`; no other validation exists, so for `T ≥ 2` the
assembly succeeds for every latent dimension `d`, including `d = 0`. -/
def build_precision (T : ℕ) (A Q0inv Qinv : Mat d K) (r_psi_sqrt : ℕ → Mat d K) :
    Except GraphError ((ℕ → Mat d K) × (ℕ → Mat d K)) :=
  if 2 ≤ T then
    Except.ok (Sinv_diag A Q0inv Qinv r_psi_sqrt, Sinv_ldiag0 A Q0inv Qinv)
  else Except.error GraphError.tfInvalidArgument

/-- The posterior-mean endpoint behind the `build_precision` validation: the
graph for `post_z_means` can only be built when the precision assembly
succeeds. -/
def post_z_means_checked (chol : Mat d K → Mat d K) (T : ℕ) (A Q0inv Qinv : Mat d K)
    (r_psi_sqrt : ℕ → Mat d K) (m_psi : ℕ → Vec d K) : Except GraphError (ℕ → Vec d K) :=
  match build_precision T A Q0inv Qinv r_psi_sqrt with
  | Except.ok _ => Except.ok (post_z_means chol A Q0inv Qinv r_psi_sqrt m_psi T)
  | Except.error e => Except.error e

/-! ## Expansion of block-structured operators to dense matrices -/

/-- A family of `T` blocks of length `d`, flattened to a vector indexed by
`Fin T × Fin d`. -/
def expandVec (T : ℕ) (x : ℕ → Vec d K) : Fin T × Fin d → K := fun p => x p.1.val p.2

/-- Dense `(T·d) × (T·d)` matrix of a general block-tridiagonal operator with
diagonal blocks `Dg`, sub-diagonal blocks `Sb` and super-diagonal blocks
`Sp`. -/
def expandTriGen (T : ℕ) (Dg Sb Sp : ℕ → Mat d K) :
    Matrix (Fin T × Fin d) (Fin T × Fin d) K :=
  Matrix.of fun p q =>
    if p.1.val = q.1.val then Dg p.1.val p.2 q.2
    else if p.1.val = q.1.val + 1 then Sb q.1.val p.2 q.2
    else if q.1.val = p.1.val + 1 then Sp p.1.val p.2 q.2
    else 0

/-- Dense matrix of a symmetric block-tridiagonal operand: sub-diagonal blocks
`L`, super-diagonal blocks `Lᵀ` (§3 of the spec). -/
def expandTridiag (T : ℕ) (D L : ℕ → Mat d K) :
    Matrix (Fin T × Fin d) (Fin T × Fin d) K :=
  expandTriGen T D L fun t => (L t)ᵀ

/-- Dense matrix of a lower block-bidiagonal operator (the Cholesky factor
shape): diagonal blocks `C`, sub-diagonal blocks `E`. -/
def expandBidiag (T : ℕ) (C E : ℕ → Mat d K) :
    Matrix (Fin T × Fin d) (Fin T × Fin d) K :=
  Matrix.of fun p q =>
    if p.1.val = q.1.val then C p.1.val p.2 q.2
    else if p.1.val = q.1.val + 1 then E q.1.val p.2 q.2
    else 0

/-- Dense matrix of a block-diagonal operator. -/
def expandBlockDiag (T : ℕ) (B : ℕ → Mat d K) :
    Matrix (Fin T × Fin d) (Fin T × Fin d) K :=
  Matrix.of fun p q => if p.1.val = q.1.val then B p.1.val p.2 q.2 else 0

/-- Lower-triangular dense blocks: everything strictly above the diagonal is
zero. -/
def IsLowerTri (C : Mat d K) : Prop := ∀ i j : Fin d, i < j → C i j = 0

/-- Correctness of the dense backend Cholesky (`tf.cholesky`): on a positive
definite input it returns a lower-triangular factor whose product with its
transpose reconstructs the input. -/
def CholCorrect (chol : Mat d ℝ → Mat d ℝ) : Prop :=
  ∀ M : Mat d ℝ, M.PosDef → IsLowerTri (chol M) ∧ chol M * (chol M)ᵀ = M

/-- Entropy endpoint as a function of the per-batch encoder outputs
`(m_psi, r_psi_sqrt)`: the code path builds the precision blocks from
`r_psi_sqrt`, factorizes them and hands the diagonal Cholesky blocks to
`evaluate_entropy`; `m_psi` is consumed only by the posterior-mean branch
(`src/netlds/inference.py` lines 199-223), not by the entropy
(lines 316-329). -/
noncomputable def evaluate_entropy_of_data (chol : Mat d ℝ → Mat d ℝ) (A Q0inv Qinv : Mat d ℝ)
    (N T : ℕ) (m_psi : Fin N → ℕ → Vec d ℝ) (r_psi_sqrt : Fin N → ℕ → Mat d ℝ) : ℝ :=
  evaluate_entropy N T fun n =>
    blk_tridiag_chol_diag chol (Sinv_diag A Q0inv Qinv (r_psi_sqrt n))
      (Sinv_ldiag0 A Q0inv Qinv)

/-! ## Finite-sum support helpers -/

lemma sum_single_support {n : ℕ} {M : Type} [AddCommMonoid M] (f : Fin n → M) (a : Fin n)
    (h : ∀ s, s ≠ a → f s = 0) : ∑ s, f s = f a :=
  Finset.sum_eq_single a (fun s _ hs => h s hs) fun ha => absurd (Finset.mem_univ a) ha

/-! ## Correctness of the dense substitutions -/

/-- One unfolding of the forward substitution at entry `i`. -/
lemma fwdSub_entry (C : Mat d K) (b : Vec d K) (i : Fin d) :
    fwdSub C b i =
      (b i - ∑ j : Fin i.val, C i ⟨j.val, j.isLt.trans i.isLt⟩ *
        fwdSub C b ⟨j.val, j.isLt.trans i.isLt⟩) / C i i := by
  show fwdSubAux C b i.val i.isLt = _
  rw [fwdSubAux]
  rfl

/-- One unfolding of the backward substitution at entry `i`. -/
lemma bwdSub_entry (C : Mat d K) (b : Vec d K) (i : Fin d) :
    bwdSub C b i =
      (b i - ∑ j : Fin (d - 1 - i.val),
        C ⟨d - 1 - j.val, by omega⟩ i * bwdSub C b ⟨d - 1 - j.val, by omega⟩) / C i i := by
  show bwdSubGo C b i.val i.isLt = _
  rw [bwdSubGo]
  rfl

/-- Forward substitution solves `C x = b` when `C` is lower-triangular with
nonvanishing diagonal. -/
lemma mulVec_fwdSub (C : Mat d K) (hLT : IsLowerTri C) (hdiag : ∀ i, C i i ≠ 0)
    (b : Vec d K) : C *ᵥ fwdSub C b = b := by
  funext i
  set x := fwdSub C b with hx
  set F : ℕ → K := fun k => if h : k < d then C i ⟨k, h⟩ * x ⟨k, h⟩ else 0 with hF
  have hmv : (C *ᵥ x) i = ∑ k ∈ Finset.range d, F k := by
    rw [← Fin.sum_univ_eq_sum_range]
    simp only [Matrix.mulVec, Matrix.dotProduct]
    exact Finset.sum_congr rfl fun j _ => by simp [hF]
  have hsplit : ∑ k ∈ Finset.range d, F k =
      (∑ k ∈ Finset.range i.val, F k) + (F i.val + ∑ k ∈ Finset.Ico (i.val + 1) d, F k) := by
    rw [Finset.range_eq_Ico, ← Finset.sum_Ico_consecutive F (Nat.zero_le i.val) i.isLt.le,
      Finset.sum_eq_sum_Ico_succ_bot i.isLt F, ← Finset.range_eq_Ico]
  have htail : ∑ k ∈ Finset.Ico (i.val + 1) d, F k = 0 := by
    apply Finset.sum_eq_zero
    intro k hk
    rw [Finset.mem_Ico] at hk
    have h1 : k < d := hk.2
    have h2 : i < (⟨k, h1⟩ : Fin d) := Fin.lt_def.mpr (show i.val < k by omega)
    simp [hF, h1, hLT i ⟨k, h1⟩ h2]
  have hhead : ∑ k ∈ Finset.range i.val, F k =
      ∑ j : Fin i.val, C i ⟨j.val, j.isLt.trans i.isLt⟩ * x ⟨j.val, j.isLt.trans i.isLt⟩ := by
    rw [← Fin.sum_univ_eq_sum_range]
    refine Finset.sum_congr rfl fun j _ => ?_
    have hj : j.val < d := j.isLt.trans i.isLt
    simp [hF, hj]
  have hFi : F i.val = C i i * x i := by simp [hF]
  have hxi : C i i * x i =
      b i - ∑ j : Fin i.val, C i ⟨j.val, j.isLt.trans i.isLt⟩ *
        x ⟨j.val, j.isLt.trans i.isLt⟩ := by
    rw [hx, fwdSub_entry, mul_comm, div_mul_cancel₀ _ (hdiag i)]
  rw [hmv, hsplit, htail, hhead, hFi, hxi, add_zero, add_sub_cancel]

/-- Backward substitution solves `Cᵀ x = b` when `C` is lower-triangular with
nonvanishing diagonal. -/
lemma mulVec_bwdSub (C : Mat d K) (hLT : IsLowerTri C) (hdiag : ∀ i, C i i ≠ 0)
    (b : Vec d K) : Cᵀ *ᵥ bwdSub C b = b := by
  funext i
  set x := bwdSub C b with hx
  set F : ℕ → K := fun k => if h : k < d then C ⟨k, h⟩ i * x ⟨k, h⟩ else 0 with hF
  have hmv : (Cᵀ *ᵥ x) i = ∑ k ∈ Finset.range d, F k := by
    rw [← Fin.sum_univ_eq_sum_range]
    simp only [Matrix.mulVec, Matrix.dotProduct, Matrix.transpose_apply]
    exact Finset.sum_congr rfl fun j _ => by simp [hF]
  have hsplit : ∑ k ∈ Finset.range d, F k =
      (∑ k ∈ Finset.range i.val, F k) + (F i.val + ∑ k ∈ Finset.Ico (i.val + 1) d, F k) := by
    rw [Finset.range_eq_Ico, ← Finset.sum_Ico_consecutive F (Nat.zero_le i.val) i.isLt.le,
      Finset.sum_eq_sum_Ico_succ_bot i.isLt F, ← Finset.range_eq_Ico]
  have hhead : ∑ k ∈ Finset.range i.val, F k = 0 := by
    apply Finset.sum_eq_zero
    intro k hk
    rw [Finset.mem_range] at hk
    have h1 : k < d := hk.trans i.isLt
    have h2 : (⟨k, h1⟩ : Fin d) < i := Fin.lt_def.mpr (show k < i.val by omega)
    simp [hF, h1, hLT ⟨k, h1⟩ i h2]
  have htail : ∑ k ∈ Finset.Ico (i.val + 1) d, F k =
      ∑ j : Fin (d - 1 - i.val),
        C ⟨d - 1 - j.val, by omega⟩ i * x ⟨d - 1 - j.val, by omega⟩ := by
    rw [Finset.sum_Ico_eq_sum_range]
    have hrefl := Finset.sum_range_reflect (fun k => F (i.val + 1 + k)) (d - 1 - i.val)
    have heq1 : ∀ k ∈ Finset.range (d - 1 - i.val),
        F (i.val + 1 + (d - 1 - i.val - 1 - k)) = F (d - 1 - k) := by
      intro k hk
      rw [Finset.mem_range] at hk
      congr 1
      omega
    have heq2 : d - (i.val + 1) = d - 1 - i.val := by omega
    rw [heq2, ← hrefl, Finset.sum_congr rfl heq1, ← Fin.sum_univ_eq_sum_range
      (fun k => F (d - 1 - k)) (d - 1 - i.val)]
    refine Finset.sum_congr rfl fun j _ => ?_
    have hj : d - 1 - j.val < d := by omega
    simp [hF, hj]
  have hFi : F i.val = C i i * x i := by simp [hF]
  have hxi : C i i * x i =
      b i - ∑ j : Fin (d - 1 - i.val),
        C ⟨d - 1 - j.val, by omega⟩ i * x ⟨d - 1 - j.val, by omega⟩ := by
    rw [hx, bwdSub_entry, mul_comm, div_mul_cancel₀ _ (hdiag i)]
  rw [hmv, hsplit, hhead, htail, hFi, hxi, zero_add, sub_add_cancel]

/-- The row-wise triangular solve satisfies `E Cᵀ = L`. -/
lemma rightSolveT_mul (C L : Mat d K) (hLT : IsLowerTri C) (hdiag : ∀ i, C i i ≠ 0) :
    rightSolveT C L * Cᵀ = L := by
  ext r j
  have h := congrFun (mulVec_fwdSub C hLT hdiag fun k => L r k) j
  simp only [Matrix.mulVec, Matrix.dotProduct] at h
  rw [Matrix.mul_apply]
  calc ∑ k, rightSolveT C L r k * Cᵀ k j
      = ∑ k, C j k * fwdSub C (fun k => L r k) k := by
        refine Finset.sum_congr rfl fun k _ => ?_
        rw [rightSolveT, Matrix.of_apply, Matrix.transpose_apply, mul_comm]
    _ = L r j := h

/-! ## Block-level specification of the block-triangular solves -/

/-- The forward block solve satisfies `C_t X_t = B_t − E_{t−1} X_{t−1}`. -/
lemma blk_chol_inv_lower_spec (C E : ℕ → Mat d K) (B : ℕ → Vec d K) (t : ℕ)
    (hLT : IsLowerTri (C t)) (hdiag : ∀ i, C t i i ≠ 0) :
    C t *ᵥ blk_chol_inv_lower C E B t =
      B t - (if t = 0 then 0 else E (t - 1) *ᵥ blk_chol_inv_lower C E B (t - 1)) := by
  cases t with
  | zero => simpa using mulVec_fwdSub (C 0) hLT hdiag (B 0)
  | succ s =>
    simpa using
      mulVec_fwdSub (C (s + 1)) hLT hdiag (B (s + 1) - E s *ᵥ blk_chol_inv_lower C E B s)

/-- The backward block solve satisfies `C_tᵀ X_t = B_t − E_tᵀ X_{t+1}` for
`t < T` (no future term at the last block). -/
lemma blk_chol_inv_upperT_spec (T : ℕ) (C E : ℕ → Mat d K) (B : ℕ → Vec d K) (t : ℕ)
    (ht : t < T) (hLT : IsLowerTri (C t)) (hdiag : ∀ i, C t i i ≠ 0) :
    (C t)ᵀ *ᵥ blk_chol_inv_upperT T C E B t =
      B t - (if t + 1 < T then (E t)ᵀ *ᵥ blk_chol_inv_upperT T C E B (t + 1) else 0) := by
  by_cases h : t + 1 < T
  · have h1 : T - 1 - t = (T - 2 - t) + 1 := by omega
    have h2 : T - 2 - (T - 2 - t) = t := by omega
    have h3 : T - 1 - (t + 1) = T - 2 - t := by omega
    rw [blk_chol_inv_upperT, h1, blk_chol_inv_upperTAux, h2, if_pos h, blk_chol_inv_upperT, h3]
    exact mulVec_bwdSub (C t) hLT hdiag _
  · have h0 : T - 1 = t := by omega
    have h1 : T - 1 - t = 0 := by omega
    rw [blk_chol_inv_upperT, h1, blk_chol_inv_upperTAux, h0, if_neg h, sub_zero]
    exact mulVec_bwdSub (C t) hLT hdiag _

/-! ## Bridging flat vectors and block families -/

/-- Truncation of a flat vector back into blocks (zero outside the range). -/
def blkOf (T : ℕ) (z : Fin T × Fin d → K) : ℕ → Vec d K := fun t i =>
  if h : t < T then z (⟨t, h⟩, i) else 0

lemma expandVec_blkOf (T : ℕ) (z : Fin T × Fin d → K) : expandVec T (blkOf T z) = z := by
  funext p
  exact dif_pos p.1.isLt

lemma dot_expandVec (T : ℕ) (x y : ℕ → Vec d K) :
    expandVec T x ⬝ᵥ expandVec T y = ∑ t : Fin T, x t.val ⬝ᵥ y t.val := by
  simp [Matrix.dotProduct, expandVec, Fintype.sum_prod_type]

/-! ## Entry decompositions and single-block sums -/

lemma expandBidiag_apply_split (T : ℕ) (C E : ℕ → Mat d K) (p q : Fin T × Fin d) :
    expandBidiag T C E p q =
      (if p.1.val = q.1.val then C p.1.val p.2 q.2 else 0) +
        (if p.1.val = q.1.val + 1 then E q.1.val p.2 q.2 else 0) := by
  rw [expandBidiag, Matrix.of_apply]
  split_ifs <;> first | omega | ring

lemma expandTriGen_apply_split (T : ℕ) (Dg Sb Sp : ℕ → Mat d K) (p q : Fin T × Fin d) :
    expandTriGen T Dg Sb Sp p q =
      (if p.1.val = q.1.val then Dg p.1.val p.2 q.2 else 0) +
        (if p.1.val = q.1.val + 1 then Sb q.1.val p.2 q.2 else 0) +
        (if q.1.val = p.1.val + 1 then Sp p.1.val p.2 q.2 else 0) := by
  rw [expandTriGen, Matrix.of_apply]
  split_ifs <;> first | omega | ring

/-- A doubly-indexed sum whose outer-index support is the single block `a`. -/
lemma sum_prod_ite_block {T : ℕ} (a : Fin T) (cond : Fin T → Prop) [DecidablePred cond]
    (g : Fin T → Fin d → K) (hcond : ∀ s, cond s ↔ s = a) :
    ∑ s : Fin T, ∑ k : Fin d, (if cond s then g s k else 0) = ∑ k : Fin d, g a k := by
  rw [sum_single_support (fun s => ∑ k : Fin d, if cond s then g s k else 0) a]
  · exact Finset.sum_congr rfl fun k _ => if_pos ((hcond a).mpr rfl)
  · intro s hs
    exact Finset.sum_eq_zero fun k _ => if_neg fun hc => hs ((hcond s).mp hc)

/-- A doubly-indexed sum whose condition never holds. -/
lemma sum_prod_ite_zero {T : ℕ} (cond : Fin T → Prop) [DecidablePred cond]
    (g : Fin T → Fin d → K) (hcond : ∀ s, ¬ cond s) :
    ∑ s : Fin T, ∑ k : Fin d, (if cond s then g s k else 0) = 0 :=
  Finset.sum_eq_zero fun s _ => Finset.sum_eq_zero fun k _ => if_neg (hcond s)

/-! ## Matrix-vector products of the expanded operators -/

lemma expandBlockDiag_mulVec (T : ℕ) (B : ℕ → Mat d K) (x : ℕ → Vec d K) :
    expandBlockDiag T B *ᵥ expandVec T x = expandVec T fun t => B t *ᵥ x t := by
  funext p
  show ∑ q : Fin T × Fin d, expandBlockDiag T B p q * expandVec T x q = _
  rw [Fintype.sum_prod_type]
  have h1 : ∀ s : Fin T, ∀ k : Fin d,
      expandBlockDiag T B p (s, k) * expandVec T x (s, k) =
        if p.1.val = s.val then B p.1.val p.2 k * x s.val k else 0 := by
    intro s k
    rw [expandBlockDiag, Matrix.of_apply, expandVec, ite_mul, zero_mul]
  simp only [h1]
  rw [sum_prod_ite_block p.1 (fun s => p.1.val = s.val)
    (fun s k => B p.1.val p.2 k * x s.val k) fun s => ⟨fun hv => Fin.ext hv.symm, fun he => by rw [he]⟩]
  rfl

lemma expandBidiag_mulVec (T : ℕ) (C E : ℕ → Mat d K) (x : ℕ → Vec d K) :
    expandBidiag T C E *ᵥ expandVec T x =
      expandVec T fun t => C t *ᵥ x t + (if t = 0 then 0 else E (t - 1) *ᵥ x (t - 1)) := by
  funext p
  show ∑ q : Fin T × Fin d, expandBidiag T C E p q * expandVec T x q = _
  rw [Fintype.sum_prod_type]
  have h1 : ∀ s : Fin T, ∀ k : Fin d,
      expandBidiag T C E p (s, k) * expandVec T x (s, k) =
        (if p.1.val = s.val then C p.1.val p.2 k * x s.val k else 0) +
          (if p.1.val = s.val + 1 then E s.val p.2 k * x s.val k else 0) := by
    intro s k
    rw [expandBidiag_apply_split, expandVec, add_mul, ite_mul, zero_mul, ite_mul, zero_mul]
  simp only [h1, Finset.sum_add_distrib]
  rw [sum_prod_ite_block p.1 (fun s => p.1.val = s.val)
    (fun s k => C p.1.val p.2 k * x s.val k) fun s => ⟨fun hv => Fin.ext hv.symm, fun he => by rw [he]⟩]
  by_cases h0 : p.1.val = 0
  · rw [sum_prod_ite_zero (fun s : Fin T => p.1.val = s.val + 1)
      (fun s k => E s.val p.2 k * x s.val k) fun s => by omega]
    show _ = (C p.1.val *ᵥ x p.1.val + _) p.2
    rw [if_pos h0]
    simp [Matrix.mulVec, Matrix.dotProduct]
  · have hlt : p.1.val - 1 < T := by have := p.1.isLt; omega
    rw [sum_prod_ite_block ⟨p.1.val - 1, hlt⟩ (fun s => p.1.val = s.val + 1)
      (fun s k => E s.val p.2 k * x s.val k)
      fun s => ⟨fun hv => Fin.ext (show s.val = p.1.val - 1 by omega), fun he => by subst he; show p.1.val = p.1.val - 1 + 1; omega⟩]
    show _ = (C p.1.val *ᵥ x p.1.val + _) p.2
    rw [if_neg h0]
    simp [Matrix.mulVec, Matrix.dotProduct]

lemma expandBidiag_transpose_mulVec (T : ℕ) (C E : ℕ → Mat d K) (x : ℕ → Vec d K) :
    (expandBidiag T C E)ᵀ *ᵥ expandVec T x =
      expandVec T fun t =>
        (C t)ᵀ *ᵥ x t + (if t + 1 < T then (E t)ᵀ *ᵥ x (t + 1) else 0) := by
  funext p
  show ∑ q : Fin T × Fin d, (expandBidiag T C E)ᵀ p q * expandVec T x q = _
  rw [Fintype.sum_prod_type]
  have h1 : ∀ s : Fin T, ∀ k : Fin d,
      (expandBidiag T C E)ᵀ p (s, k) * expandVec T x (s, k) =
        (if s.val = p.1.val then C s.val k p.2 * x s.val k else 0) +
          (if s.val = p.1.val + 1 then E p.1.val k p.2 * x s.val k else 0) := by
    intro s k
    rw [Matrix.transpose_apply, expandBidiag_apply_split, expandVec, add_mul,
      ite_mul, zero_mul, ite_mul, zero_mul]
  simp only [h1, Finset.sum_add_distrib]
  rw [sum_prod_ite_block p.1 (fun s => s.val = p.1.val)
    (fun s k => C s.val k p.2 * x s.val k) fun s => ⟨fun hv => Fin.ext hv, fun he => by rw [he]⟩]
  by_cases h0 : p.1.val + 1 < T
  · rw [sum_prod_ite_block ⟨p.1.val + 1, h0⟩ (fun s => s.val = p.1.val + 1)
      (fun s k => E p.1.val k p.2 * x s.val k)
      fun s => ⟨fun hv => Fin.ext hv, fun he => by rw [he]⟩]
    show _ = ((C p.1.val)ᵀ *ᵥ x p.1.val + _) p.2
    rw [if_pos h0]
    simp [Matrix.mulVec, Matrix.dotProduct, Matrix.transpose_apply]
  · rw [sum_prod_ite_zero (fun s : Fin T => s.val = p.1.val + 1)
      (fun s k => E p.1.val k p.2 * x s.val k) fun s => by have := s.isLt; omega]
    show _ = ((C p.1.val)ᵀ *ᵥ x p.1.val + _) p.2
    rw [if_neg h0]
    simp [Matrix.mulVec, Matrix.dotProduct, Matrix.transpose_apply]

lemma expandTriGen_mulVec (T : ℕ) (Dg Sb Sp : ℕ → Mat d K) (x : ℕ → Vec d K) :
    expandTriGen T Dg Sb Sp *ᵥ expandVec T x =
      expandVec T fun t =>
        Dg t *ᵥ x t + (if t = 0 then 0 else Sb (t - 1) *ᵥ x (t - 1)) +
          (if t + 1 < T then Sp t *ᵥ x (t + 1) else 0) := by
  funext p
  show ∑ q : Fin T × Fin d, expandTriGen T Dg Sb Sp p q * expandVec T x q = _
  rw [Fintype.sum_prod_type]
  have h1 : ∀ s : Fin T, ∀ k : Fin d,
      expandTriGen T Dg Sb Sp p (s, k) * expandVec T x (s, k) =
        (if p.1.val = s.val then Dg p.1.val p.2 k * x s.val k else 0) +
          (if p.1.val = s.val + 1 then Sb s.val p.2 k * x s.val k else 0) +
          (if s.val = p.1.val + 1 then Sp p.1.val p.2 k * x s.val k else 0) := by
    intro s k
    rw [expandTriGen_apply_split, expandVec, add_mul, add_mul, ite_mul, zero_mul,
      ite_mul, zero_mul, ite_mul, zero_mul]
  simp only [h1, Finset.sum_add_distrib]
  rw [sum_prod_ite_block p.1 (fun s => p.1.val = s.val)
    (fun s k => Dg p.1.val p.2 k * x s.val k) fun s => ⟨fun hv => Fin.ext hv.symm, fun he => by rw [he]⟩]
  have hmid : (∑ s : Fin T, ∑ k : Fin d,
      if p.1.val = s.val + 1 then Sb s.val p.2 k * x s.val k else 0) =
      ((if p.1.val = 0 then 0 else Sb (p.1.val - 1) *ᵥ x (p.1.val - 1)) : Vec d K) p.2 := by
    by_cases h0 : p.1.val = 0
    · rw [sum_prod_ite_zero (fun s : Fin T => p.1.val = s.val + 1)
        (fun s k => Sb s.val p.2 k * x s.val k) fun s => by omega, if_pos h0]
      rfl
    · have hlt : p.1.val - 1 < T := by have := p.1.isLt; omega
      rw [sum_prod_ite_block ⟨p.1.val - 1, hlt⟩ (fun s => p.1.val = s.val + 1)
        (fun s k => Sb s.val p.2 k * x s.val k)
        (fun s => ⟨fun hv => Fin.ext (show s.val = p.1.val - 1 by omega), fun he => by subst he; show p.1.val = p.1.val - 1 + 1; omega⟩), if_neg h0]
      simp [Matrix.mulVec, Matrix.dotProduct]
  have hsup : (∑ s : Fin T, ∑ k : Fin d,
      if s.val = p.1.val + 1 then Sp p.1.val p.2 k * x s.val k else 0) =
      ((if p.1.val + 1 < T then Sp p.1.val *ᵥ x (p.1.val + 1) else 0) : Vec d K) p.2 := by
    by_cases h0 : p.1.val + 1 < T
    · rw [sum_prod_ite_block ⟨p.1.val + 1, h0⟩ (fun s => s.val = p.1.val + 1)
        (fun s k => Sp p.1.val p.2 k * x s.val k)
        (fun s => ⟨fun hv => Fin.ext hv, fun he => by rw [he]⟩), if_pos h0]
      simp [Matrix.mulVec, Matrix.dotProduct]
    · rw [sum_prod_ite_zero (fun s : Fin T => s.val = p.1.val + 1)
        (fun s k => Sp p.1.val p.2 k * x s.val k) (fun s => by have := s.isLt; omega),
        if_neg h0]
      rfl
  rw [hmid, hsup]
  show _ = (Dg p.1.val *ᵥ x p.1.val + _ + _) p.2
  simp [Matrix.mulVec, Matrix.dotProduct]

/-! ## Products of expanded block operators -/

lemma ite_zero_mul_ite_zero {a b : Prop} [Decidable a] [Decidable b] (X Y : K) :
    (if a then X else 0) * (if b then Y else 0) = if a ∧ b then X * Y else 0 := by
  by_cases ha : a <;> by_cases hb : b <;> simp [ha, hb]

/-- Right multiplication of a lower block-bidiagonal by a block-diagonal. -/
lemma expandBidiag_mul_blockDiag (T : ℕ) (C E B : ℕ → Mat d K) :
    expandBidiag T C E * expandBlockDiag T B =
      expandBidiag T (fun t => C t * B t) (fun t => E t * B t) := by
  ext p q
  rw [Matrix.mul_apply, Fintype.sum_prod_type]
  have h1 : ∀ s : Fin T, ∀ k : Fin d,
      expandBidiag T C E p (s, k) * expandBlockDiag T B (s, k) q =
        if s.val = q.1.val then expandBidiag T C E p (s, k) * B s.val k q.2 else 0 := by
    intro s k
    rw [expandBlockDiag, Matrix.of_apply, mul_ite, mul_zero]
  simp only [h1]
  rw [sum_prod_ite_block q.1 (fun s => s.val = q.1.val)
    (fun s k => expandBidiag T C E p (s, k) * B s.val k q.2)
    fun s => ⟨fun hv => Fin.ext hv, fun he => by rw [he]⟩]
  by_cases hd : p.1.val = q.1.val
  · have h2 : ∀ k : Fin d, expandBidiag T C E p (q.1, k) = C p.1.val p.2 k := fun k => by
      rw [expandBidiag, Matrix.of_apply, if_pos hd]
    have h3 : expandBidiag T (fun t => C t * B t) (fun t => E t * B t) p q =
        (C p.1.val * B p.1.val) p.2 q.2 := by
      rw [expandBidiag, Matrix.of_apply, if_pos hd]
    simp only [h2, h3, Matrix.mul_apply, hd]
  · by_cases hs : p.1.val = q.1.val + 1
    · have h2 : ∀ k : Fin d, expandBidiag T C E p (q.1, k) = E q.1.val p.2 k := fun k => by
        rw [expandBidiag, Matrix.of_apply, if_neg hd, if_pos hs]
      have h3 : expandBidiag T (fun t => C t * B t) (fun t => E t * B t) p q =
          (E q.1.val * B q.1.val) p.2 q.2 := by
        rw [expandBidiag, Matrix.of_apply, if_neg hd, if_pos hs]
      simp only [h2, h3, Matrix.mul_apply]
    · have h2 : ∀ k : Fin d, expandBidiag T C E p (q.1, k) = 0 := fun k => by
        rw [expandBidiag, Matrix.of_apply, if_neg hd, if_neg hs]
      have h3 : expandBidiag T (fun t => C t * B t) (fun t => E t * B t) p q = 0 := by
        rw [expandBidiag, Matrix.of_apply, if_neg hd, if_neg hs]
      simp only [h2, h3, zero_mul, Finset.sum_const_zero]

/-- The product of a lower block-bidiagonal with the transpose of another is
block-tridiagonal, with the familiar Cholesky-shaped blocks. -/
lemma expandBidiag_mul_bidiag_transpose (T : ℕ) (C1 E1 C2 E2 : ℕ → Mat d K) :
    expandBidiag T C1 E1 * (expandBidiag T C2 E2)ᵀ =
      expandTriGen T
        (fun t => C1 t * (C2 t)ᵀ +
          (if t = 0 then 0 else E1 (t - 1) * (E2 (t - 1))ᵀ))
        (fun t => E1 t * (C2 t)ᵀ)
        (fun t => C1 t * (E2 t)ᵀ) := by
  ext p q
  rw [Matrix.mul_apply, Fintype.sum_prod_type]
  have h1 : ∀ s : Fin T, ∀ k : Fin d,
      expandBidiag T C1 E1 p (s, k) * (expandBidiag T C2 E2)ᵀ (s, k) q =
        (if p.1.val = s.val ∧ q.1.val = s.val then C1 p.1.val p.2 k * C2 q.1.val q.2 k else 0) +
        (if p.1.val = s.val ∧ q.1.val = s.val + 1 then C1 p.1.val p.2 k * E2 s.val q.2 k else 0) +
        (if p.1.val = s.val + 1 ∧ q.1.val = s.val then E1 s.val p.2 k * C2 q.1.val q.2 k else 0) +
        (if p.1.val = s.val + 1 ∧ q.1.val = s.val + 1 then E1 s.val p.2 k * E2 s.val q.2 k
          else 0) := by
    intro s k
    rw [Matrix.transpose_apply, expandBidiag_apply_split, expandBidiag_apply_split,
      add_mul, mul_add, mul_add, ite_zero_mul_ite_zero, ite_zero_mul_ite_zero,
      ite_zero_mul_ite_zero, ite_zero_mul_ite_zero]
    ring
  simp only [h1, Finset.sum_add_distrib]
  have hRHS : expandTriGen T
      (fun t => C1 t * (C2 t)ᵀ + (if t = 0 then 0 else E1 (t - 1) * (E2 (t - 1))ᵀ))
      (fun t => E1 t * (C2 t)ᵀ) (fun t => C1 t * (E2 t)ᵀ) p q =
      (if p.1.val = q.1.val then
        (C1 p.1.val * (C2 p.1.val)ᵀ) p.2 q.2 +
          (if p.1.val = 0 then 0 else (E1 (p.1.val - 1) * (E2 (p.1.val - 1))ᵀ) p.2 q.2)
      else if p.1.val = q.1.val + 1 then (E1 q.1.val * (C2 q.1.val)ᵀ) p.2 q.2
      else if q.1.val = p.1.val + 1 then (C1 p.1.val * (E2 p.1.val)ᵀ) p.2 q.2
      else 0) := by
    rw [expandTriGen, Matrix.of_apply]
    split_ifs with hd hz <;> simp [Matrix.add_apply]
  rw [hRHS]
  by_cases hd : p.1.val = q.1.val
  · rw [if_pos hd]
    rw [sum_prod_ite_block p.1 (fun s => p.1.val = s.val ∧ q.1.val = s.val)
      (fun s k => C1 p.1.val p.2 k * C2 q.1.val q.2 k)
      fun s => ⟨fun hv => Fin.ext hv.1.symm, fun he => by subst he; omega⟩]
    rw [sum_prod_ite_zero (fun s : Fin T => p.1.val = s.val ∧ q.1.val = s.val + 1)
      (fun s k => C1 p.1.val p.2 k * E2 s.val q.2 k) fun s => by omega]
    rw [sum_prod_ite_zero (fun s : Fin T => p.1.val = s.val + 1 ∧ q.1.val = s.val)
      (fun s k => E1 s.val p.2 k * C2 q.1.val q.2 k) fun s => by omega]
    by_cases h0 : p.1.val = 0
    · rw [sum_prod_ite_zero (fun s : Fin T => p.1.val = s.val + 1 ∧ q.1.val = s.val + 1)
        (fun s k => E1 s.val p.2 k * E2 s.val q.2 k) fun s => by omega]
      rw [if_pos h0]
      have hC : (C1 p.1.val * (C2 p.1.val)ᵀ) p.2 q.2 =
          ∑ k : Fin d, C1 p.1.val p.2 k * C2 q.1.val q.2 k := by
        rw [Matrix.mul_apply, hd]
        exact Finset.sum_congr rfl fun k _ => by rw [Matrix.transpose_apply]
      rw [hC]
      ring
    · have hlt : p.1.val - 1 < T := by have := p.1.isLt; omega
      rw [sum_prod_ite_block ⟨p.1.val - 1, hlt⟩
        (fun s => p.1.val = s.val + 1 ∧ q.1.val = s.val + 1)
        (fun s k => E1 s.val p.2 k * E2 s.val q.2 k)
        fun s => ⟨fun hv => Fin.ext (show s.val = p.1.val - 1 by omega),
          fun he => by
            subst he
            exact ⟨show p.1.val = p.1.val - 1 + 1 by omega,
              show q.1.val = p.1.val - 1 + 1 by omega⟩⟩]
      rw [if_neg h0]
      have hC : (C1 p.1.val * (C2 p.1.val)ᵀ) p.2 q.2 =
          ∑ k : Fin d, C1 p.1.val p.2 k * C2 q.1.val q.2 k := by
        rw [Matrix.mul_apply, hd]
        exact Finset.sum_congr rfl fun k _ => by rw [Matrix.transpose_apply]
      have hE : (E1 (p.1.val - 1) * (E2 (p.1.val - 1))ᵀ) p.2 q.2 =
          ∑ k : Fin d, E1 (p.1.val - 1) p.2 k * E2 (p.1.val - 1) q.2 k := by
        rw [Matrix.mul_apply]
        exact Finset.sum_congr rfl fun k _ => by rw [Matrix.transpose_apply]
      rw [hC, hE]
      ring
  · by_cases hs : p.1.val = q.1.val + 1
    · rw [if_neg hd, if_pos hs]
      rw [sum_prod_ite_zero (fun s : Fin T => p.1.val = s.val ∧ q.1.val = s.val)
        (fun s k => C1 p.1.val p.2 k * C2 q.1.val q.2 k) fun s => by omega]
      rw [sum_prod_ite_zero (fun s : Fin T => p.1.val = s.val ∧ q.1.val = s.val + 1)
        (fun s k => C1 p.1.val p.2 k * E2 s.val q.2 k) fun s => by omega]
      rw [sum_prod_ite_block q.1 (fun s => p.1.val = s.val + 1 ∧ q.1.val = s.val)
        (fun s k => E1 s.val p.2 k * C2 q.1.val q.2 k)
        fun s => ⟨fun hv => Fin.ext hv.2.symm, fun he => by subst he; omega⟩]
      rw [sum_prod_ite_zero (fun s : Fin T => p.1.val = s.val + 1 ∧ q.1.val = s.val + 1)
        (fun s k => E1 s.val p.2 k * E2 s.val q.2 k) fun s => by omega]
      have hE : (E1 q.1.val * (C2 q.1.val)ᵀ) p.2 q.2 =
          ∑ k : Fin d, E1 q.1.val p.2 k * C2 q.1.val q.2 k := by
        rw [Matrix.mul_apply]
        exact Finset.sum_congr rfl fun k _ => by rw [Matrix.transpose_apply]
      rw [hE]
      ring
    · by_cases hs2 : q.1.val = p.1.val + 1
      · rw [if_neg hd, if_neg hs, if_pos hs2]
        rw [sum_prod_ite_zero (fun s : Fin T => p.1.val = s.val ∧ q.1.val = s.val)
          (fun s k => C1 p.1.val p.2 k * C2 q.1.val q.2 k) fun s => by omega]
        rw [sum_prod_ite_block p.1 (fun s => p.1.val = s.val ∧ q.1.val = s.val + 1)
          (fun s k => C1 p.1.val p.2 k * E2 s.val q.2 k)
          fun s => ⟨fun hv => Fin.ext hv.1.symm, fun he => by subst he; omega⟩]
        rw [sum_prod_ite_zero (fun s : Fin T => p.1.val = s.val + 1 ∧ q.1.val = s.val)
          (fun s k => E1 s.val p.2 k * C2 q.1.val q.2 k) fun s => by omega]
        rw [sum_prod_ite_zero (fun s : Fin T => p.1.val = s.val + 1 ∧ q.1.val = s.val + 1)
          (fun s k => E1 s.val p.2 k * E2 s.val q.2 k) fun s => by omega]
        have hC : (C1 p.1.val * (E2 p.1.val)ᵀ) p.2 q.2 =
            ∑ k : Fin d, C1 p.1.val p.2 k * E2 p.1.val q.2 k := by
          rw [Matrix.mul_apply]
          exact Finset.sum_congr rfl fun k _ => by rw [Matrix.transpose_apply]
        rw [hC]
        ring
      · rw [if_neg hd, if_neg hs, if_neg hs2]
        rw [sum_prod_ite_zero (fun s : Fin T => p.1.val = s.val ∧ q.1.val = s.val)
          (fun s k => C1 p.1.val p.2 k * C2 q.1.val q.2 k) fun s => by omega]
        rw [sum_prod_ite_zero (fun s : Fin T => p.1.val = s.val ∧ q.1.val = s.val + 1)
          (fun s k => C1 p.1.val p.2 k * E2 s.val q.2 k) fun s => by omega]
        rw [sum_prod_ite_zero (fun s : Fin T => p.1.val = s.val + 1 ∧ q.1.val = s.val)
          (fun s k => E1 s.val p.2 k * C2 q.1.val q.2 k) fun s => by omega]
        rw [sum_prod_ite_zero (fun s : Fin T => p.1.val = s.val + 1 ∧ q.1.val = s.val + 1)
          (fun s k => E1 s.val p.2 k * E2 s.val q.2 k) fun s => by omega]
        ring

/-- Two expanded tridiagonal operators agree when their block families agree
on the indices that actually occur. -/
lemma expandTriGen_congr (T : ℕ) (Dg Sb Sp Dg2 Sb2 Sp2 : ℕ → Mat d K)
    (hD : ∀ t, t < T → Dg t = Dg2 t) (hSb : ∀ t, t + 1 < T → Sb t = Sb2 t)
    (hSp : ∀ t, t + 1 < T → Sp t = Sp2 t) :
    expandTriGen T Dg Sb Sp = expandTriGen T Dg2 Sb2 Sp2 := by
  ext p q
  rw [expandTriGen, expandTriGen, Matrix.of_apply, Matrix.of_apply]
  split_ifs with h1 h2 h3
  · rw [hD p.1.val p.1.isLt]
  · rw [hSb q.1.val (by have := p.1.isLt; omega)]
  · rw [hSp p.1.val (by have := q.1.isLt; omega)]
  · rfl

/-- Adding a block-diagonal operator only changes the diagonal blocks. -/
lemma expandTridiag_add_blockDiag (T : ℕ) (D L B : ℕ → Mat d K) :
    expandTridiag T (fun t => D t + B t) L =
      expandTridiag T D L + expandBlockDiag T B := by
  ext p q
  rw [Matrix.add_apply, expandTridiag, expandTridiag, expandTriGen, expandTriGen,
    expandBlockDiag, Matrix.of_apply, Matrix.of_apply, Matrix.of_apply]
  split_ifs <;> first | rw [Matrix.add_apply] | ring | omega

/-! ## Positivity of expanded operators (over ℝ) -/

lemma isHermitian_of_symm {n : Type} [Fintype n] (M : Matrix n n ℝ)
    (h : ∀ i j, M j i = M i j) : M.IsHermitian := by
  ext i j
  rw [Matrix.conjTranspose_apply, star_trivial]
  exact h i j

lemma expandTridiag_isHermitian (T : ℕ) (D L : ℕ → Mat d ℝ)
    (hD : ∀ t, t < T → ∀ i j, D t j i = D t i j) :
    (expandTridiag T D L).IsHermitian := by
  apply isHermitian_of_symm
  intro p q
  rw [expandTridiag, expandTriGen, Matrix.of_apply, Matrix.of_apply]
  by_cases h1 : p.1.val = q.1.val
  · rw [if_pos h1, if_pos h1.symm, show q.1.val = p.1.val from h1.symm]
    exact hD p.1.val p.1.isLt p.2 q.2
  · by_cases h2 : p.1.val = q.1.val + 1
    · rw [if_neg (show ¬q.1.val = p.1.val by omega),
        if_neg (show ¬q.1.val = p.1.val + 1 by omega), if_pos h2, if_neg h1, if_pos h2,
        Matrix.transpose_apply]
    · by_cases h3 : q.1.val = p.1.val + 1
      · rw [if_neg (show ¬q.1.val = p.1.val by omega), if_pos h3, if_neg h1, if_neg h2,
          if_pos h3, Matrix.transpose_apply]
      · rw [if_neg (show ¬q.1.val = p.1.val by omega),
          if_neg (show ¬q.1.val = p.1.val + 1 by omega),
          if_neg (show ¬p.1.val = q.1.val + 1 by omega), if_neg h1, if_neg h2, if_neg h3]

lemma expandBlockDiag_isHermitian (T : ℕ) (B : ℕ → Mat d ℝ)
    (hB : ∀ t, t < T → ∀ i j, B t j i = B t i j) :
    (expandBlockDiag T B).IsHermitian := by
  apply isHermitian_of_symm
  intro p q
  rw [expandBlockDiag, Matrix.of_apply, Matrix.of_apply]
  by_cases h1 : p.1.val = q.1.val
  · rw [if_pos h1, if_pos h1.symm, show q.1.val = p.1.val from h1.symm]
    exact hB p.1.val p.1.isLt p.2 q.2
  · rw [if_neg (show ¬q.1.val = p.1.val by omega), if_neg h1]

lemma posSemidef_expandBlockDiag (T : ℕ) (B : ℕ → Mat d ℝ)
    (hB : ∀ t, t < T → (B t).PosSemidef) : (expandBlockDiag T B).PosSemidef := by
  constructor
  · exact expandBlockDiag_isHermitian T B fun t ht i j => by
      have := (hB t ht).isHermitian
      calc B t j i = star (B t j i) := (star_trivial _).symm
        _ = (B t)ᴴ i j := by rw [Matrix.conjTranspose_apply]
        _ = B t i j := by rw [this]
  · intro z
    have hsz : star z = z := by
      funext p
      exact star_trivial _
    rw [hsz, ← expandVec_blkOf T z, expandBlockDiag_mulVec, dot_expandVec]
    apply Finset.sum_nonneg
    intro t _
    have h := (hB t.val t.isLt).2 (blkOf T z t.val)
    have hsb : star (blkOf T z t.val) = blkOf T z t.val := by
      funext i
      exact star_trivial _
    rwa [hsb] at h

lemma posDef_expandBlockDiag (T : ℕ) (B : ℕ → Mat d ℝ)
    (hB : ∀ t, t < T → (B t).PosDef) : (expandBlockDiag T B).PosDef := by
  constructor
  · exact (posSemidef_expandBlockDiag T B fun t ht => (hB t ht).posSemidef).isHermitian
  · intro z hz
    have hsz : star z = z := by
      funext p
      exact star_trivial _
    rw [hsz, ← expandVec_blkOf T z, expandBlockDiag_mulVec, dot_expandVec]
    obtain ⟨p, hp⟩ := Function.ne_iff.mp hz
    apply Finset.sum_pos'
    · intro t _
      have h := ((hB t.val t.isLt).posSemidef).2 (blkOf T z t.val)
      have hsb : star (blkOf T z t.val) = blkOf T z t.val := by
        funext i
        exact star_trivial _
      rwa [hsb] at h
    · refine ⟨p.1, Finset.mem_univ _, ?_⟩
      have hne : blkOf T z p.1.val ≠ 0 := by
        intro hc
        apply hp
        have := congrFun hc p.2
        rwa [blkOf, dif_pos p.1.isLt] at this
      have h := (hB p.1.val p.1.isLt).2 (blkOf T z p.1.val) hne
      have hsb : star (blkOf T z p.1.val) = blkOf T z p.1.val := by
        funext i
        exact star_trivial _
      rwa [hsb] at h

/-- The unit lower block-bidiagonal operator with sub-diagonal blocks `−A` has
an injective transpose action: back-substitution from the last block. -/
lemma unit_bidiag_transpose_mulVec_injective (T : ℕ) (A : Mat d ℝ)
    (z : Fin T × Fin d → ℝ)
    (h : (expandBidiag T (fun _ => (1 : Mat d ℝ)) fun _ => -A)ᵀ *ᵥ z = 0) : z = 0 := by
  have h2 : expandVec T (fun t => (1 : Mat d ℝ)ᵀ *ᵥ blkOf T z t +
      (if t + 1 < T then ((-A : Mat d ℝ))ᵀ *ᵥ blkOf T z (t + 1) else 0)) = 0 := by
    rw [← expandBidiag_transpose_mulVec, expandVec_blkOf]
    exact h
  have hblk : ∀ t, t < T → blkOf T z t +
      (if t + 1 < T then (-A : Mat d ℝ)ᵀ *ᵥ blkOf T z (t + 1) else 0) = 0 := by
    intro t ht
    funext i
    have := congrFun h2 (⟨t, ht⟩, i)
    rw [expandVec] at this
    simpa [Matrix.transpose_one] using this
  have key : ∀ m, ∀ t, t < T → T - 1 - t ≤ m → blkOf T z t = 0 := by
    intro m
    induction m with
    | zero =>
      intro t ht hm
      have hlast : ¬ (t + 1 < T) := by omega
      have := hblk t ht
      rwa [if_neg hlast, add_zero] at this
    | succ m ih =>
      intro t ht hm
      by_cases hcase : T - 1 - t ≤ m
      · exact ih t ht hcase
      · have hlt : t + 1 < T := by omega
        have hnext : blkOf T z (t + 1) = 0 := ih (t + 1) hlt (by omega)
        have := hblk t ht
        rwa [if_pos hlt, hnext, Matrix.mulVec_zero, add_zero] at this
  funext p
  have := congrFun (key (T - 1) p.1.val p.1.isLt (by omega)) p.2
  rwa [blkOf, dif_pos p.1.isLt] at this

/-- Congruence by an injective square operator preserves positive
definiteness. -/
lemma posDef_mul_posDef_mul_transpose {n : Type} [Fintype n] [DecidableEq n]
    (Kq B : Matrix n n ℝ) (hB : B.PosDef)
    (hK : ∀ z : n → ℝ, Kqᵀ *ᵥ z = 0 → z = 0) : (Kq * B * Kqᵀ).PosDef := by
  constructor
  · have hBh : Bᵀ = B := by
      have := hB.isHermitian
      rw [Matrix.IsHermitian, Matrix.conjTranspose_eq_transpose_of_trivial] at this
      exact this
    apply isHermitian_of_symm
    intro i j
    have htr : (Kq * B * Kqᵀ)ᵀ = Kq * B * Kqᵀ := by
      rw [Matrix.transpose_mul, Matrix.transpose_mul, Matrix.transpose_transpose, hBh,
        ← Matrix.mul_assoc]
    calc (Kq * B * Kqᵀ) j i = (Kq * B * Kqᵀ)ᵀ i j := by rw [Matrix.transpose_apply]
      _ = (Kq * B * Kqᵀ) i j := by rw [htr]
  · intro x hx
    have hsx : star x = x := by
      funext p
      exact star_trivial _
    rw [hsx]
    have hmv : (Kq * B * Kqᵀ) *ᵥ x = Kq *ᵥ (B *ᵥ (Kqᵀ *ᵥ x)) := by
      rw [← Matrix.mulVec_mulVec, ← Matrix.mulVec_mulVec]
    rw [hmv, Matrix.dotProduct_mulVec, ← Matrix.mulVec_transpose]
    have hz : Kqᵀ *ᵥ x ≠ 0 := fun hc => hx (hK x hc)
    have h := hB.2 (Kqᵀ *ᵥ x) hz
    have hsz : star (Kqᵀ *ᵥ x) = Kqᵀ *ᵥ x := by
      funext p
      exact star_trivial _
    rwa [hsz] at h

/-! ## The assembled precision matrix is SPD -/

/-- Static noise-precision blocks: `Q0inv` at the initial time, `Qinv`
afterwards. -/
def staticB (Q0inv Qinv : Mat d K) : ℕ → Mat d K := fun t => if t = 0 then Q0inv else Qinv

/-- The static part of the assembled precision operand is the congruence of
the block-diagonal of noise precisions by the unit lower block-bidiagonal
with sub-diagonal blocks `−A`. -/
lemma static_eq_conj (T : ℕ) (A Q0inv Qinv : Mat d ℝ)
    (hQ0 : Q0invᵀ = Q0inv) (hQ : Qinvᵀ = Qinv) :
    expandTridiag T (Sinv_diag_static A Q0inv Qinv) (Sinv_ldiag0 A Q0inv Qinv) =
      expandBidiag T (fun _ => (1 : Mat d ℝ)) (fun _ => -A) *
          expandBlockDiag T (staticB Q0inv Qinv) *
        (expandBidiag T (fun _ => (1 : Mat d ℝ)) (fun _ => -A))ᵀ := by
  rw [expandBidiag_mul_blockDiag, expandBidiag_mul_bidiag_transpose, expandTridiag]
  apply expandTriGen_congr
  · intro t _
    by_cases h0 : t = 0
    · subst h0
      simp [Sinv_diag_static, staticB]
    · by_cases h1 : t = 1
      · subst h1
        simp [Sinv_diag_static, staticB, AQ0invA_Qinv, Matrix.transpose_neg]
        noncomm_ring
      · have ht1 : t - 1 ≠ 0 := by omega
        simp only [Sinv_diag_static, staticB, AQinvA_Qinv, if_neg h0, if_neg h1, if_neg ht1,
          Matrix.transpose_one, Matrix.transpose_neg, one_mul, mul_one]
        noncomm_ring
  · intro t _
    by_cases h0 : t = 0
    · subst h0
      simp [Sinv_ldiag0, staticB, AQ0inv]
    · simp only [Sinv_ldiag0, staticB, if_neg h0, AQinv, Matrix.transpose_one, mul_one]
  · intro t _
    by_cases h0 : t = 0
    · subst h0
      simp [Sinv_ldiag0, staticB, AQ0inv, Matrix.transpose_mul, Matrix.transpose_neg, hQ0]
    · simp only [Sinv_ldiag0, staticB, if_neg h0, AQinv, Matrix.transpose_mul,
        Matrix.transpose_neg, hQ, one_mul]

/-- Positive definiteness of the fully assembled precision matrix: static
dynamics term (a congruence of a PD block-diagonal) plus the PSD data term. -/
lemma posDef_assembled (T : ℕ) (A Q0inv Qinv : Mat d ℝ) (r_psi_sqrt : ℕ → Mat d ℝ)
    (hQ0 : Q0inv.PosDef) (hQ : Qinv.PosDef) :
    (expandTridiag T (Sinv_diag A Q0inv Qinv r_psi_sqrt)
      (Sinv_ldiag0 A Q0inv Qinv)).PosDef := by
  have hsym : ∀ M : Mat d ℝ, M.PosDef → Mᵀ = M := fun M hM => by
    have := hM.isHermitian
    rwa [Matrix.IsHermitian, Matrix.conjTranspose_eq_transpose_of_trivial] at this
  have hsplit : expandTridiag T (Sinv_diag A Q0inv Qinv r_psi_sqrt)
      (Sinv_ldiag0 A Q0inv Qinv) =
      expandTridiag T (Sinv_diag_static A Q0inv Qinv) (Sinv_ldiag0 A Q0inv Qinv) +
        expandBlockDiag T (c_psi_inv r_psi_sqrt) := by
    rw [← expandTridiag_add_blockDiag]
    rfl
  rw [hsplit, static_eq_conj T A Q0inv Qinv (hsym _ hQ0) (hsym _ hQ)]
  apply Matrix.PosDef.add_posSemidef
  · apply posDef_mul_posDef_mul_transpose
    · apply posDef_expandBlockDiag
      intro t _
      by_cases h : t = 0
      · simpa [staticB, h] using hQ0
      · simpa [staticB, h] using hQ
    · exact fun z hz => unit_bidiag_transpose_mulVec_injective T A z hz
  · apply posSemidef_expandBlockDiag
    intro t _
    have h := Matrix.posSemidef_self_mul_conjTranspose (r_psi_sqrt t)
    rw [Matrix.conjTranspose_eq_transpose_of_trivial] at h
    exact h

/-! ## Claim C6: the assembled precision matrix is SPD -/

/-- C6: for every encoder output `r_psi_sqrt` and SPD `Q`, `Q0` (with their
inverses as derived by the code), the data-dependent diagonal contribution
`c_psi_inv[t] = r_psi_sqrt[t] r_psi_sqrt[t]ᵀ` is positive semidefinite at
every time step, and the fully assembled block-tridiagonal precision matrix
is symmetric positive definite. -/
theorem claim6 (T : ℕ) (A Q0 Q0inv Q Qinv : Mat d ℝ) (r_psi_sqrt : ℕ → Mat d ℝ)
    (hQ0 : Q0.PosDef) (hQ : Q.PosDef) (hQ0i : Q0 * Q0inv = 1) (hQi : Q * Qinv = 1) :
    (∀ t, (c_psi_inv r_psi_sqrt t).PosSemidef) ∧
      (expandTridiag T (Sinv_diag A Q0inv Qinv r_psi_sqrt)
        (Sinv_ldiag0 A Q0inv Qinv)).PosDef := by
  have hQ0inv : Q0inv.PosDef := by
    rw [← Matrix.inv_eq_right_inv hQ0i]
    exact hQ0.inv
  have hQinv : Qinv.PosDef := by
    rw [← Matrix.inv_eq_right_inv hQi]
    exact hQ.inv
  refine ⟨fun t => ?_, posDef_assembled T A Q0inv Qinv r_psi_sqrt hQ0inv hQinv⟩
  have h := Matrix.posSemidef_self_mul_conjTranspose (r_psi_sqrt t)
  rw [Matrix.conjTranspose_eq_transpose_of_trivial] at h
  exact h

/-- C6 witness at `T = 2`, `d = 1`, `A = 0`, `Q = Q0 = 1`. -/
theorem claim6_witness :
    ((1 : Mat 1 ℝ).PosDef ∧ (1 : Mat 1 ℝ).PosDef ∧ (1 : Mat 1 ℝ) * 1 = 1 ∧
        (1 : Mat 1 ℝ) * 1 = 1) ∧
      ((∀ t, (c_psi_inv (fun _ => (0 : Mat 1 ℝ)) t).PosSemidef) ∧
        (expandTridiag 2 (Sinv_diag (0 : Mat 1 ℝ) 1 1 fun _ => 0)
          (Sinv_ldiag0 (0 : Mat 1 ℝ) 1 1)).PosDef) :=
  ⟨⟨Matrix.PosDef.one, Matrix.PosDef.one, mul_one 1, mul_one 1⟩,
    claim6 2 0 1 1 1 1 (fun _ => 0) Matrix.PosDef.one Matrix.PosDef.one
      (mul_one 1) (mul_one 1)⟩

/-! ## Quadratic form of an expanded tridiagonal operator -/

lemma dot_transpose_mulVec (M : Mat d K) (a b : Vec d K) :
    a ⬝ᵥ (Mᵀ *ᵥ b) = b ⬝ᵥ (M *ᵥ a) := by
  rw [Matrix.dotProduct_mulVec, Matrix.vecMul_transpose, Matrix.dotProduct_comm]

lemma sum_shift_down {M : Type} [AddCommMonoid M] (T : ℕ) (g : ℕ → M) :
    ∑ t : Fin T, (if 1 ≤ t.val then g (t.val - 1) else 0) =
      ∑ t : Fin T, (if t.val + 1 < T then g t.val else 0) := by
  rw [Fin.sum_univ_eq_sum_range (fun k => if 1 ≤ k then g (k - 1) else 0) T,
    Fin.sum_univ_eq_sum_range (fun k => if k + 1 < T then g k else 0) T]
  have hL : ∑ k ∈ Finset.range T, (if 1 ≤ k then g (k - 1) else 0) =
      ∑ k ∈ Finset.range (T - 1), g k := by
    rw [← Finset.sum_filter]
    have hset : (Finset.range T).filter (fun k => 1 ≤ k) = Finset.Ico 1 T := by
      ext k
      simp only [Finset.mem_filter, Finset.mem_range, Finset.mem_Ico]
      omega
    rw [hset, Finset.sum_Ico_eq_sum_range]
    exact Finset.sum_congr rfl fun k _ => by
      congr 1
      omega
  have hR : ∑ k ∈ Finset.range T, (if k + 1 < T then g k else 0) =
      ∑ k ∈ Finset.range (T - 1), g k := by
    rw [← Finset.sum_filter]
    have hset : (Finset.range T).filter (fun k => k + 1 < T) = Finset.range (T - 1) := by
      ext k
      simp only [Finset.mem_filter, Finset.mem_range]
      omega
    rw [hset]
  rw [hL, hR]

/-- The quadratic form of the expanded symmetric block-tridiagonal operand,
decomposed into per-block diagonal terms and doubled coupling terms. -/
lemma quad_expandTridiag (T : ℕ) (D L : ℕ → Mat d K) (x : ℕ → Vec d K) :
    expandVec T x ⬝ᵥ (expandTridiag T D L *ᵥ expandVec T x) =
      (∑ t : Fin T, x t.val ⬝ᵥ (D t.val *ᵥ x t.val)) +
        2 * ∑ t : Fin T,
          (if t.val + 1 < T then x (t.val + 1) ⬝ᵥ (L t.val *ᵥ x t.val) else 0) := by
  rw [expandTridiag, expandTriGen_mulVec, dot_expandVec]
  have hterm : ∀ t : Fin T,
      x t.val ⬝ᵥ (D t.val *ᵥ x t.val +
          (if t.val = 0 then 0 else L (t.val - 1) *ᵥ x (t.val - 1)) +
          (if t.val + 1 < T then (L t.val)ᵀ *ᵥ x (t.val + 1) else 0)) =
        x t.val ⬝ᵥ (D t.val *ᵥ x t.val) +
          (if 1 ≤ t.val then
            x ((t.val - 1) + 1) ⬝ᵥ (L (t.val - 1) *ᵥ x (t.val - 1)) else 0) +
          (if t.val + 1 < T then x (t.val + 1) ⬝ᵥ (L t.val *ᵥ x t.val) else 0) := by
    intro t
    rw [Matrix.dotProduct_add, Matrix.dotProduct_add]
    congr 1
    · congr 1
      by_cases h0 : t.val = 0
      · rw [if_pos h0, if_neg (by omega), Matrix.dotProduct_zero]
      · rw [if_neg h0, if_pos (by omega)]
        have ht : t.val - 1 + 1 = t.val := by omega
        rw [ht]
    · by_cases h1 : t.val + 1 < T
      · rw [if_pos h1, if_pos h1, dot_transpose_mulVec]
      · rw [if_neg h1, if_neg h1, Matrix.dotProduct_zero]
  rw [Finset.sum_congr rfl fun t _ => hterm t, Finset.sum_add_distrib,
    Finset.sum_add_distrib]
  have hshift : ∑ t : Fin T,
      (if 1 ≤ t.val then x ((t.val - 1) + 1) ⬝ᵥ (L (t.val - 1) *ᵥ x (t.val - 1)) else 0) =
      ∑ t : Fin T, (if t.val + 1 < T then x (t.val + 1) ⬝ᵥ (L t.val *ᵥ x t.val) else 0) :=
    sum_shift_down T fun k => x (k + 1) ⬝ᵥ (L k *ᵥ x k)
  rw [hshift]
  ring

/-- The first diagonal block of a positive definite expanded tridiagonal
operand is positive definite. -/
lemma posDef_block0 (T : ℕ) (D L : ℕ → Mat d ℝ) (hT : 0 < T)
    (hM : (expandTridiag T D L).PosDef) : (D 0).PosDef := by
  constructor
  · apply isHermitian_of_symm
    intro i j
    have h2 := congrFun (congrFun hM.1 (⟨0, hT⟩, i)) (⟨0, hT⟩, j)
    rw [Matrix.conjTranspose_apply, star_trivial] at h2
    rw [expandTridiag, expandTriGen, Matrix.of_apply, Matrix.of_apply] at h2
    simpa using h2
  · intro v hv
    set xb : ℕ → Vec d ℝ := fun t => if t = 0 then v else 0 with hxb
    have hx : expandVec T xb ≠ 0 := by
      intro hc
      apply hv
      funext i
      have := congrFun hc (⟨0, hT⟩, i)
      rw [expandVec] at this
      simpa [hxb] using this
    have h := hM.2 (expandVec T xb) hx
    have hs : star (expandVec T xb) = expandVec T xb := by
      funext p
      exact star_trivial _
    rw [hs, quad_expandTridiag] at h
    have hdiagsum : ∑ t : Fin T, xb t.val ⬝ᵥ (D t.val *ᵥ xb t.val) =
        v ⬝ᵥ (D 0 *ᵥ v) := by
      rw [sum_single_support _ ⟨0, hT⟩]
      · simp [hxb]
      · intro s hs2
        have hsv : s.val ≠ 0 := fun hc => hs2 (Fin.ext hc)
        simp [hxb, hsv]
    have hcross : ∑ t : Fin T,
        (if t.val + 1 < T then xb (t.val + 1) ⬝ᵥ (L t.val *ᵥ xb t.val) else 0) = 0 := by
      apply Finset.sum_eq_zero
      intro t _
      have h1 : xb (t.val + 1) = 0 := by simp [hxb]
      rw [h1]
      simp
    rw [hdiagsum, hcross, mul_zero, add_zero] at h
    have hsv : star v = v := by
      funext i
      exact star_trivial _
    rwa [hsv]

/-! ## The Schur-complement step of the block Cholesky recursion -/

/-- The residual system after eliminating the first block: the second
diagonal block loses `E_0 E_0ᵀ`, everything else shifts down by one. -/
def shiftD (chol : Mat d K → Mat d K) (D L : ℕ → Mat d K) : ℕ → Mat d K := fun t =>
  if t = 0 then
    D 1 - blk_tridiag_chol_offdiag chol D L 0 * (blk_tridiag_chol_offdiag chol D L 0)ᵀ
  else D (t + 1)

/-- The sub-diagonal blocks of the residual system. -/
def shiftL (L : ℕ → Mat d K) : ℕ → Mat d K := fun t => L (t + 1)

/-- The Cholesky recursion on the shifted system computes the tail of the
recursion on the original system. -/
lemma cholArg_shift (chol : Mat d K → Mat d K) (D L : ℕ → Mat d K) :
    ∀ t, cholArg chol D L (t + 1) = cholArg chol (shiftD chol D L) (shiftL L) t := by
  intro t
  induction t with
  | zero => rfl
  | succ t ih =>
    show D (t + 1 + 1) -
        rightSolveT (chol (cholArg chol D L (t + 1))) (L (t + 1)) *
          (rightSolveT (chol (cholArg chol D L (t + 1))) (L (t + 1)))ᵀ = _
    rw [ih]
    show _ = shiftD chol D L (t + 1) -
        rightSolveT (chol (cholArg chol (shiftD chol D L) (shiftL L) t)) (shiftL L t) *
          (rightSolveT (chol (cholArg chol (shiftD chol D L) (shiftL L) t)) (shiftL L t))ᵀ
    rw [shiftD, if_neg (Nat.succ_ne_zero t)]
    rfl

/-- Diagonal blocks of a Hermitian expanded tridiagonal operand are
symmetric. -/
lemma expandTridiag_diag_symm (T : ℕ) (D L : ℕ → Mat d ℝ)
    (h : (expandTridiag T D L).IsHermitian) (t : ℕ) (ht : t < T) :
    ∀ i j, D t j i = D t i j := by
  intro i j
  have h2 := congrFun (congrFun h (⟨t, ht⟩, i)) (⟨t, ht⟩, j)
  rw [Matrix.conjTranspose_apply, star_trivial] at h2
  rw [expandTridiag, expandTriGen, Matrix.of_apply, Matrix.of_apply] at h2
  simpa using h2

/-- A lower-triangular factor of a positive definite matrix has nonvanishing
diagonal. -/
lemma lowerTri_diag_ne_zero (C M : Mat d ℝ) (hLT : IsLowerTri C) (hCC : C * Cᵀ = M)
    (hM : M.PosDef) : ∀ i, C i i ≠ 0 := by
  have hdet : C.det * C.det = M.det := by
    rw [← hCC, Matrix.det_mul, Matrix.det_transpose]
  have hCdet : C.det ≠ 0 := by
    intro h
    rw [h, zero_mul] at hdet
    exact hM.det_pos.ne' hdet.symm
  have hBT : C.BlockTriangular OrderDual.toDual := fun i j hij =>
    hLT i j (OrderDual.toDual_lt_toDual.mp hij)
  have hprod : C.det = ∏ i, C i i := Matrix.det_of_lowerTriangular C hBT
  intro i hi
  apply hCdet
  rw [hprod]
  exact Finset.prod_eq_zero (Finset.mem_univ i) hi

/-- Eliminating the first block of a positive definite block-tridiagonal
operand leaves a positive definite residual system. -/
lemma schur_step (T : ℕ) (chol : Mat d ℝ → Mat d ℝ) (hchol : CholCorrect chol)
    (D L : ℕ → Mat d ℝ) (hM : (expandTridiag (T + 1) D L).PosDef) :
    (expandTridiag T (shiftD chol D L) (shiftL L)).PosDef := by
  have hD0 : (D 0).PosDef := posDef_block0 (T + 1) D L (Nat.succ_pos T) hM
  obtain ⟨hLT0, hCC0⟩ := hchol (D 0) hD0
  have hdiag0 : ∀ i, chol (D 0) i i ≠ 0 :=
    lowerTri_diag_ne_zero (chol (D 0)) (D 0) hLT0 hCC0 hD0
  have hEC : blk_tridiag_chol_offdiag chol D L 0 * (chol (D 0))ᵀ = L 0 :=
    rightSolveT_mul (chol (D 0)) (L 0) hLT0 hdiag0
  constructor
  · apply expandTridiag_isHermitian
    intro t ht i j
    by_cases h0 : t = 0
    · subst h0
      have hsym1 := expandTridiag_diag_symm (T + 1) D L hM.1 1 (by omega)
      rw [shiftD, if_pos rfl, Matrix.sub_apply, Matrix.sub_apply, hsym1 i j]
      congr 1
      rw [Matrix.mul_apply, Matrix.mul_apply]
      exact Finset.sum_congr rfl fun k _ => by
        rw [Matrix.transpose_apply, Matrix.transpose_apply, mul_comm]
    · rw [shiftD, if_neg h0]
      exact expandTridiag_diag_symm (T + 1) D L hM.1 (t + 1) (by omega) i j
  · intro y hy
    have hsy : star y = y := by
      funext p
      exact star_trivial _
    rw [hsy]
    obtain ⟨p0, hp0⟩ := Function.ne_iff.mp hy
    have hTpos : 0 < T := by have := p0.1.isLt; omega
    set E0 : Mat d ℝ := blk_tridiag_chol_offdiag chol D L 0 with hE0
    set yb : ℕ → Vec d ℝ := blkOf T y with hyb
    set w : Vec d ℝ := E0ᵀ *ᵥ yb 0 with hw
    set x0 : Vec d ℝ := bwdSub (chol (D 0)) (-w) with hx0
    have hCx : (chol (D 0))ᵀ *ᵥ x0 = -w := mulVec_bwdSub (chol (D 0)) hLT0 hdiag0 (-w)
    set xb : ℕ → Vec d ℝ := fun t => if t = 0 then x0 else yb (t - 1) with hxb
    have hxne : expandVec (T + 1) xb ≠ 0 := by
      intro hc
      apply hp0
      have hlt : p0.1.val + 1 < T + 1 := by omega
      have h2 := congrFun hc (⟨p0.1.val + 1, hlt⟩, p0.2)
      rw [expandVec] at h2
      simpa [hxb, hyb, blkOf, p0.1.isLt] using h2
    have hpos := hM.2 (expandVec (T + 1) xb) hxne
    have hsx : star (expandVec (T + 1) xb) = expandVec (T + 1) xb := by
      funext p
      exact star_trivial _
    rw [hsx, quad_expandTridiag] at hpos
    have hgoal : y = expandVec T yb := (expandVec_blkOf T y).symm
    rw [hgoal, quad_expandTridiag]
    -- the three scalar identities of the elimination
    have hx0D : x0 ⬝ᵥ (D 0 *ᵥ x0) = w ⬝ᵥ w := by
      rw [← hCC0, ← Matrix.mulVec_mulVec, Matrix.dotProduct_mulVec,
        ← Matrix.mulVec_transpose, hCx]
      rw [Matrix.neg_dotProduct, Matrix.dotProduct_neg, neg_neg]
    have hcross : yb 0 ⬝ᵥ (L 0 *ᵥ x0) = -(w ⬝ᵥ w) := by
      rw [← hEC, ← Matrix.mulVec_mulVec, Matrix.dotProduct_mulVec,
        ← Matrix.mulVec_transpose, hCx]
      rw [Matrix.dotProduct_neg]
    have hcorr : yb 0 ⬝ᵥ ((E0 * E0ᵀ) *ᵥ yb 0) = w ⬝ᵥ w := by
      rw [← Matrix.mulVec_mulVec, Matrix.dotProduct_mulVec, ← Matrix.mulVec_transpose]
    -- decompose the (T+1)-sums
    have hA1 : ∑ t : Fin (T + 1), xb t.val ⬝ᵥ (D t.val *ᵥ xb t.val) =
        x0 ⬝ᵥ (D 0 *ᵥ x0) +
          ∑ t : Fin T, yb t.val ⬝ᵥ (D (t.val + 1) *ᵥ yb t.val) := by
      rw [Fin.sum_univ_succ]
      simp [hxb, Fin.val_succ]
    have hA2 : ∑ t : Fin (T + 1),
        (if t.val + 1 < T + 1 then xb (t.val + 1) ⬝ᵥ (L t.val *ᵥ xb t.val) else 0) =
        yb 0 ⬝ᵥ (L 0 *ᵥ x0) +
          ∑ t : Fin T,
            (if t.val + 1 < T then yb (t.val + 1) ⬝ᵥ (shiftL L t.val *ᵥ yb t.val) else 0) := by
      rw [Fin.sum_univ_succ]
      simp [hxb, Fin.val_succ, hTpos, shiftL]
    have hB1 : ∑ t : Fin T, yb t.val ⬝ᵥ (shiftD chol D L t.val *ᵥ yb t.val) =
        (∑ t : Fin T, yb t.val ⬝ᵥ (D (t.val + 1) *ᵥ yb t.val)) -
          yb 0 ⬝ᵥ ((E0 * E0ᵀ) *ᵥ yb 0) := by
      have hterm : ∀ t : Fin T,
          yb t.val ⬝ᵥ (shiftD chol D L t.val *ᵥ yb t.val) =
            yb t.val ⬝ᵥ (D (t.val + 1) *ᵥ yb t.val) -
              (if t.val = 0 then yb 0 ⬝ᵥ ((E0 * E0ᵀ) *ᵥ yb 0) else 0) := by
        intro t
        by_cases h0 : t.val = 0
        · rw [shiftD, if_pos h0, if_pos h0, h0, Matrix.sub_mulVec, Matrix.dotProduct_sub]
        · rw [shiftD, if_neg h0, if_neg h0, sub_zero]
      rw [Finset.sum_congr rfl fun t _ => hterm t, Finset.sum_sub_distrib]
      congr 1
      rw [sum_single_support _ ⟨0, hTpos⟩]
      · rw [if_pos rfl]
      · intro s hs
        have hsv : s.val ≠ 0 := fun hc => hs (Fin.ext hc)
        rw [if_neg hsv]
    rw [hA1, hA2, hx0D, hcross] at hpos
    rw [hB1, hcorr]
    linarith

/-- Every dense Cholesky argument arising from a positive definite operand is
positive definite. -/
lemma cholArg_posDef (chol : Mat d ℝ → Mat d ℝ) (hchol : CholCorrect chol) :
    ∀ T : ℕ, ∀ D L : ℕ → Mat d ℝ, (expandTridiag T D L).PosDef →
      ∀ t, t < T → (cholArg chol D L t).PosDef := by
  intro T
  induction T with
  | zero =>
    intro D L _ t ht
    omega
  | succ T ih =>
    intro D L hM t ht
    cases t with
    | zero => exact posDef_block0 (T + 1) D L (Nat.succ_pos T) hM
    | succ s =>
      rw [cholArg_shift]
      exact ih (shiftD chol D L) (shiftL L) (schur_step T chol hchol D L hM) s (by omega)

/-- Two expanded block vectors agree when their families agree on the indices
that occur. -/
lemma expandVec_congr (T : ℕ) (x y : ℕ → Vec d K) (h : ∀ t, t < T → x t = y t) :
    expandVec T x = expandVec T y := by
  funext p
  show x p.1.val p.2 = y p.1.val p.2
  rw [h p.1.val p.1.isLt]

/-! ## Reconstruction of the operand by the computed factor -/

/-- On a positive definite operand, every computed diagonal Cholesky block is
lower-triangular with nonvanishing diagonal and squares to its argument. -/
lemma blkChol_valid (T : ℕ) (chol : Mat d ℝ → Mat d ℝ) (hchol : CholCorrect chol)
    (D L : ℕ → Mat d ℝ) (hM : (expandTridiag T D L).PosDef) (t : ℕ) (ht : t < T) :
    IsLowerTri (blk_tridiag_chol_diag chol D L t) ∧
      (∀ i, blk_tridiag_chol_diag chol D L t i i ≠ 0) ∧
      blk_tridiag_chol_diag chol D L t * (blk_tridiag_chol_diag chol D L t)ᵀ =
        cholArg chol D L t := by
  have hArg := cholArg_posDef chol hchol T D L hM t ht
  obtain ⟨hLT, hCC⟩ := hchol _ hArg
  exact ⟨hLT, lowerTri_diag_ne_zero _ _ hLT hCC hArg, hCC⟩

/-- The computed block-bidiagonal factor reconstructs the operand:
`C Cᵀ = S` at the level of the dense expanded matrices. -/
lemma blk_reconstruct (T : ℕ) (chol : Mat d ℝ → Mat d ℝ) (hchol : CholCorrect chol)
    (D L : ℕ → Mat d ℝ) (hM : (expandTridiag T D L).PosDef) :
    expandBidiag T (blk_tridiag_chol_diag chol D L) (blk_tridiag_chol_offdiag chol D L) *
      (expandBidiag T (blk_tridiag_chol_diag chol D L)
        (blk_tridiag_chol_offdiag chol D L))ᵀ =
      expandTridiag T D L := by
  rw [expandBidiag_mul_bidiag_transpose, expandTridiag]
  apply expandTriGen_congr
  · intro t ht
    by_cases h0 : t = 0
    · subst h0
      rw [if_pos rfl, add_zero, (blkChol_valid T chol hchol D L hM 0 ht).2.2]
      rfl
    · rw [if_neg h0, (blkChol_valid T chol hchol D L hM t ht).2.2]
      obtain ⟨s, rfl⟩ : ∃ s, t = s + 1 := ⟨t - 1, by omega⟩
      show D (s + 1) -
          blk_tridiag_chol_offdiag chol D L s * (blk_tridiag_chol_offdiag chol D L s)ᵀ +
          blk_tridiag_chol_offdiag chol D L s * (blk_tridiag_chol_offdiag chol D L s)ᵀ =
        D (s + 1)
      exact sub_add_cancel _ _
  · intro t ht1
    have h := blkChol_valid T chol hchol D L hM t (by omega)
    exact rightSolveT_mul (blk_tridiag_chol_diag chol D L t) (L t) h.1 h.2.1
  · intro t ht1
    have h := blkChol_valid T chol hchol D L hM t (by omega)
    have h2 := rightSolveT_mul (blk_tridiag_chol_diag chol D L t) (L t) h.1 h.2.1
    show blk_tridiag_chol_diag chol D L t *
        (rightSolveT (blk_tridiag_chol_diag chol D L t) (L t))ᵀ = (L t)ᵀ
    have h3 := congrArg Matrix.transpose h2
    rw [Matrix.transpose_mul, Matrix.transpose_transpose] at h3
    exact h3

/-! ## Claim C3: the block Cholesky factorization reconstructs the operand -/

/-- C3: for every SPD block-tridiagonal operand (and a correct dense backend
Cholesky), the factor `(C, E)` produced by `blk_tridiag_chol` satisfies
`C Cᵀ = S` once both are expanded to dense `(T·d) × (T·d)` matrices. -/
theorem claim3 (T : ℕ) (chol : Mat d ℝ → Mat d ℝ) (D L : ℕ → Mat d ℝ)
    (hchol : CholCorrect chol) (hM : (expandTridiag T D L).PosDef) :
    expandBidiag T (blk_tridiag_chol chol D L).1 (blk_tridiag_chol chol D L).2 *
      (expandBidiag T (blk_tridiag_chol chol D L).1 (blk_tridiag_chol chol D L).2)ᵀ =
      expandTridiag T D L :=
  blk_reconstruct T chol hchol D L hM

/-- A correct dense Cholesky for `d = 1`: the scalar square root. -/
lemma chol1_correct :
    CholCorrect (d := 1) fun M => Matrix.of fun _ _ => Real.sqrt (M 0 0) := by
  intro M hM
  have h00 : 0 < M 0 0 := by
    have h := hM.2 (fun _ => 1) (by
      intro hc
      have := congrFun hc 0
      norm_num at this)
    simpa [Matrix.mulVec, Matrix.dotProduct] using h
  constructor
  · intro i j hij
    exact absurd (Subsingleton.elim i j) (ne_of_lt hij)
  · ext i j
    simp only [Matrix.mul_apply, Fin.sum_univ_one, Matrix.transpose_apply, Matrix.of_apply]
    rw [Subsingleton.elim i 0, Subsingleton.elim j 0]
    exact Real.mul_self_sqrt h00.le

/-- C3 witness: `T = 2`, `d = 1`, the assembled operand with `A = 0`,
`Q0inv = Qinv = 1`, no data term, and the scalar-square-root backend
Cholesky. -/
theorem claim3_witness :
    (CholCorrect (d := 1) (fun M => Matrix.of fun _ _ => Real.sqrt (M 0 0)) ∧
      (expandTridiag 2 (Sinv_diag (0 : Mat 1 ℝ) 1 1 fun _ => 0)
        (Sinv_ldiag0 (0 : Mat 1 ℝ) 1 1)).PosDef) ∧
    expandBidiag 2
        (blk_tridiag_chol (fun M => Matrix.of fun _ _ => Real.sqrt (M 0 0))
          (Sinv_diag (0 : Mat 1 ℝ) 1 1 fun _ => 0) (Sinv_ldiag0 (0 : Mat 1 ℝ) 1 1)).1
        (blk_tridiag_chol (fun M => Matrix.of fun _ _ => Real.sqrt (M 0 0))
          (Sinv_diag (0 : Mat 1 ℝ) 1 1 fun _ => 0) (Sinv_ldiag0 (0 : Mat 1 ℝ) 1 1)).2 *
      (expandBidiag 2
        (blk_tridiag_chol (fun M => Matrix.of fun _ _ => Real.sqrt (M 0 0))
          (Sinv_diag (0 : Mat 1 ℝ) 1 1 fun _ => 0) (Sinv_ldiag0 (0 : Mat 1 ℝ) 1 1)).1
        (blk_tridiag_chol (fun M => Matrix.of fun _ _ => Real.sqrt (M 0 0))
          (Sinv_diag (0 : Mat 1 ℝ) 1 1 fun _ => 0) (Sinv_ldiag0 (0 : Mat 1 ℝ) 1 1)).2)ᵀ =
      expandTridiag 2 (Sinv_diag (0 : Mat 1 ℝ) 1 1 fun _ => 0)
        (Sinv_ldiag0 (0 : Mat 1 ℝ) 1 1) :=
  ⟨⟨chol1_correct, posDef_assembled 2 0 1 1 (fun _ => 0) Matrix.PosDef.one
      Matrix.PosDef.one⟩,
    claim3 2 (fun M => Matrix.of fun _ _ => Real.sqrt (M 0 0))
      (Sinv_diag (0 : Mat 1 ℝ) 1 1 fun _ => 0) (Sinv_ldiag0 (0 : Mat 1 ℝ) 1 1)
      chol1_correct
      (posDef_assembled 2 0 1 1 (fun _ => 0) Matrix.PosDef.one Matrix.PosDef.one)⟩

/-! ## Claim C2: the posterior mean solves the normal equations -/

/-- C2: with SPD dynamics precisions and a correct dense backend Cholesky,
the posterior mean computed by forward-then-backward block-triangular solves
satisfies the information-form normal equations `S · mean = ia`, where `S` is
the expanded assembled precision matrix and `ia[t] = c_psi_inv[t] m_psi[t]`. -/
theorem claim2 (T : ℕ) (chol : Mat d ℝ → Mat d ℝ) (A Q0inv Qinv : Mat d ℝ)
    (r_psi_sqrt : ℕ → Mat d ℝ) (m_psi : ℕ → Vec d ℝ) (hchol : CholCorrect chol)
    (hQ0 : Q0inv.PosDef) (hQ : Qinv.PosDef) (hT : 2 ≤ T) :
    expandTridiag T (Sinv_diag A Q0inv Qinv r_psi_sqrt) (Sinv_ldiag0 A Q0inv Qinv) *ᵥ
      expandVec T (post_z_means chol A Q0inv Qinv r_psi_sqrt m_psi T) =
      expandVec T (ia r_psi_sqrt m_psi) := by
  set D := Sinv_diag A Q0inv Qinv r_psi_sqrt with hD
  set L := Sinv_ldiag0 A Q0inv Qinv with hL
  have hM : (expandTridiag T D L).PosDef :=
    posDef_assembled T A Q0inv Qinv r_psi_sqrt hQ0 hQ
  set Cb := blk_tridiag_chol_diag chol D L with hCb
  set Eb := blk_tridiag_chol_offdiag chol D L with hEb
  have hrec : expandBidiag T Cb Eb * (expandBidiag T Cb Eb)ᵀ = expandTridiag T D L :=
    blk_reconstruct T chol hchol D L hM
  have hmean : post_z_means chol A Q0inv Qinv r_psi_sqrt m_psi T =
      blk_chol_inv_upperT T Cb Eb (blk_chol_inv_lower Cb Eb (ia r_psi_sqrt m_psi)) := rfl
  have hb : (expandBidiag T Cb Eb)ᵀ *ᵥ
      expandVec T (blk_chol_inv_upperT T Cb Eb
        (blk_chol_inv_lower Cb Eb (ia r_psi_sqrt m_psi))) =
      expandVec T (blk_chol_inv_lower Cb Eb (ia r_psi_sqrt m_psi)) := by
    rw [expandBidiag_transpose_mulVec]
    apply expandVec_congr
    intro t ht
    have hv := blkChol_valid T chol hchol D L hM t ht
    rw [blk_chol_inv_upperT_spec T Cb Eb
      (blk_chol_inv_lower Cb Eb (ia r_psi_sqrt m_psi)) t ht hv.1 hv.2.1,
      sub_add_cancel]
  have hf : expandBidiag T Cb Eb *ᵥ
      expandVec T (blk_chol_inv_lower Cb Eb (ia r_psi_sqrt m_psi)) =
      expandVec T (ia r_psi_sqrt m_psi) := by
    rw [expandBidiag_mulVec]
    apply expandVec_congr
    intro t ht
    have hv := blkChol_valid T chol hchol D L hM t ht
    rw [blk_chol_inv_lower_spec Cb Eb (ia r_psi_sqrt m_psi) t hv.1 hv.2.1,
      sub_add_cancel]
  rw [hmean, ← hrec, ← Matrix.mulVec_mulVec, hb, hf]

/-- C2 witness: `T = 2`, `d = 1`, `A = 0`, `Q0inv = Qinv = 1`, vanishing data
terms, scalar-square-root backend Cholesky. -/
theorem claim2_witness :
    (CholCorrect (d := 1) (fun M => Matrix.of fun _ _ => Real.sqrt (M 0 0)) ∧
        (1 : Mat 1 ℝ).PosDef ∧ (1 : Mat 1 ℝ).PosDef ∧ 2 ≤ 2) ∧
      expandTridiag 2 (Sinv_diag (0 : Mat 1 ℝ) 1 1 fun _ => 0)
          (Sinv_ldiag0 (0 : Mat 1 ℝ) 1 1) *ᵥ
        expandVec 2 (post_z_means (fun M => Matrix.of fun _ _ => Real.sqrt (M 0 0))
          (0 : Mat 1 ℝ) 1 1 (fun _ => 0) (fun _ _ => 0) 2) =
        expandVec 2 (ia (fun _ => (0 : Mat 1 ℝ)) fun _ _ => (0 : ℝ)) :=
  ⟨⟨chol1_correct, Matrix.PosDef.one, Matrix.PosDef.one, le_refl 2⟩,
    claim2 2 (fun M => Matrix.of fun _ _ => Real.sqrt (M 0 0)) 0 1 1 (fun _ => 0)
      (fun _ _ => 0) chol1_correct Matrix.PosDef.one Matrix.PosDef.one (le_refl 2)⟩

/-! ## Claim C1: layout of the assembled precision blocks -/

/-- C1 counterexample: with `T = 4`, `d = 1`, `A = 1`, `Q0inv = 2`,
`Qinv = 1`, `r_psi_sqrt = 0`, the code's third diagonal block (0-based `t = 2`,
a "middle" block in the claim's range `t = 2..T−1`) is
`A Qinv Aᵀ + Qinv + c_psi_inv = 2`, not the claimed
`A Q0inv Aᵀ + Qinv + c_psi_inv = 3`. -/
theorem claim1_counterexample :
    Sinv_diag (K := ℝ) (d := 1) !![1] !![2] !![1] (fun _ => !![0]) 2 ≠
      !![1] * !![2] * (!![1] : Mat 1 ℝ)ᵀ + !![1] +
        c_psi_inv (fun _ => (!![0] : Mat 1 ℝ)) 2 := by
  intro h
  rw [← Matrix.ext_iff] at h
  have h0 := h 0 0
  norm_num [Sinv_diag, Sinv_diag_static, AQinvA_Qinv, c_psi_inv, Matrix.mul_apply,
    Matrix.vecHead, Matrix.cons_val_fin_one] at h0

/-- C1 amended: for `T ≥ 2` the assembled diagonal blocks are
`D_1 = Q0inv + c_psi_inv[1]`, `D_2 = A Q0inv Aᵀ + Qinv + c_psi_inv[2]`, and
`D_t = A Qinv Aᵀ + Qinv + c_psi_inv[t]` for every `t ≥ 3` including the last
block (the code gives the final block the same middle-block dynamics term,
not the claimed bare `Qinv`); the sub-diagonal blocks are `L_1 = −A Q0inv`
and `L_t = −A Qinv` for `t ≥ 2` (all indices 1-based as in the claim, shifted
down by one in the 0-based embedding). -/
theorem claim1_amended (T : ℕ) (hT : 2 ≤ T) (A Q0inv Qinv : Mat d ℝ)
    (r_psi_sqrt : ℕ → Mat d ℝ) :
    Sinv_diag A Q0inv Qinv r_psi_sqrt 0 = Q0inv + c_psi_inv r_psi_sqrt 0 ∧
    Sinv_diag A Q0inv Qinv r_psi_sqrt 1 =
      A * Q0inv * Aᵀ + Qinv + c_psi_inv r_psi_sqrt 1 ∧
    (∀ t : ℕ, 2 ≤ t → t < T →
      Sinv_diag A Q0inv Qinv r_psi_sqrt t =
        A * Qinv * Aᵀ + Qinv + c_psi_inv r_psi_sqrt t) ∧
    Sinv_ldiag0 A Q0inv Qinv 0 = -A * Q0inv ∧
    (∀ t : ℕ, 1 ≤ t → t < T - 1 → Sinv_ldiag0 A Q0inv Qinv t = -A * Qinv) := by
  refine ⟨?_, ?_, ?_, ?_, ?_⟩
  · simp [Sinv_diag, Sinv_diag_static]
  · simp [Sinv_diag, Sinv_diag_static, AQ0invA_Qinv, add_assoc]
  · intro t h2 _
    have ht0 : t ≠ 0 := by omega
    have ht1 : t ≠ 1 := by omega
    simp [Sinv_diag, Sinv_diag_static, AQinvA_Qinv, ht0, ht1, add_assoc]
  · simp [Sinv_ldiag0, AQ0inv]
  · intro t h1 _
    have ht0 : t ≠ 0 := by omega
    simp [Sinv_ldiag0, AQinv, ht0]

/-- C1 amended, witness at `T = 3`, `d = 1`, concrete matrices, middle index
`t = 2`. -/
theorem claim1_amended_witness :
    (2 ≤ 3 ∧ 2 ≤ 2 ∧ 2 < 3) ∧
      Sinv_diag (K := ℝ) (d := 1) !![1] !![2] !![1] (fun _ => !![0]) 2 =
        !![1] * !![1] * (!![1] : Mat 1 ℝ)ᵀ + !![1] +
          c_psi_inv (fun _ => (!![0] : Mat 1 ℝ)) 2 :=
  ⟨⟨by norm_num, by norm_num, by norm_num⟩,
    (claim1_amended 3 (by norm_num) !![1] !![2] !![1] (fun _ => !![0])).2.2.1 2
      (by norm_num) (by norm_num)⟩

/-! ## Claim C7: derived covariances and the diagonal jitter -/

/-- C7 counterexample: with `Q0_sqrt = 0` (`d = 1`),
`SmoothingLDS._initialize_model_vars` derives `Q0 = 0`, which is not
`Q0_sqrt Q0_sqrtᵀ + 1e-6 · I` and is not positive definite: the jitter is not
added in that component. -/
theorem claim7_counterexample :
    SmoothingLDS_Q (0 : Mat 1 ℝ) ≠
        (0 : Mat 1 ℝ) * (0 : Mat 1 ℝ)ᵀ + (1 / 1000000 : ℝ) • 1 ∧
      ¬ (SmoothingLDS_Q (0 : Mat 1 ℝ)).PosDef := by
  constructor
  · intro h
    have h0 := congrFun (congrFun h 0) 0
    simp [SmoothingLDS_Q] at h0
  · intro h
    have h2 := h.2 (fun _ => 1) (by
      intro hc
      have := congrFun hc 0
      norm_num at this)
    simp [SmoothingLDS_Q, Matrix.mulVec] at h2

/-- C7 amended: only `LDS.initialize_prior_vars` adds the `1e-6 · I` jitter,
and its derived covariance is symmetric positive definite for every setting
of the square-root parameter; `LDSCoupled.initialize_prior_vars` and
`SmoothingLDS._initialize_model_vars` derive the bare product
`Q_sqrt Q_sqrtᵀ` with no jitter, which is only positive semidefinite (and can
be singular). -/
theorem claim7_amended (Q_sqrt : Mat d ℝ) :
    LDS_Q Q_sqrt = Q_sqrt * Q_sqrtᵀ + (1 / 1000000 : ℝ) • 1 ∧
    (LDS_Q Q_sqrt).PosDef ∧
    LDSCoupled_Q Q_sqrt = Q_sqrt * Q_sqrtᵀ ∧
    (LDSCoupled_Q Q_sqrt).PosSemidef ∧
    SmoothingLDS_Q Q_sqrt = Q_sqrt * Q_sqrtᵀ ∧
    (SmoothingLDS_Q Q_sqrt).PosSemidef := by
  have hpsd : (Q_sqrt * Q_sqrtᵀ).PosSemidef := by
    have := Matrix.posSemidef_self_mul_conjTranspose Q_sqrt
    rwa [Matrix.conjTranspose_eq_transpose_of_trivial] at this
  refine ⟨rfl, ?_, rfl, hpsd, rfl, hpsd⟩
  have hjit : ((1 / 1000000 : ℝ) • (1 : Mat d ℝ)).PosDef := by
    have hdiag : ((1 / 1000000 : ℝ) • (1 : Mat d ℝ)) =
        Matrix.diagonal fun _ => (1 / 1000000 : ℝ) := by
      ext i j
      by_cases hij : i = j <;>
        simp [Matrix.one_apply, Matrix.diagonal, hij]
    rw [hdiag]
    exact Matrix.PosDef.diagonal fun _ => by norm_num
  exact Matrix.PosDef.posSemidef_add hpsd hjit

/-! ## Claim C8: behaviour at T = 1 -/

/-- C8 counterexample: at `T = 1` (`d = 1`, any inputs) the posterior-mean
endpoint does not succeed: graph construction fails with the backend error of
`tf.tile` applied with multiples `T − 2 = −1`, so no `D_1⁻¹ ia_1` value is
produced. -/
theorem claim8_counterexample :
    post_z_means_checked (K := ℝ) (d := 1) id 1 !![1] !![1] !![1] (fun _ => !![1])
        (fun _ _ => 0) = Except.error GraphError.tfInvalidArgument := by
  simp [post_z_means_checked, build_precision]

/-- C8 amended: for `T = 1` the posterior-mean computation does not succeed
and performs no Gaussian update at all: the assembly tiles the static middle
blocks `T − 2 = −1` times, a backend error, so the endpoint reports
`tfInvalidArgument` for every input; only `T ≥ 2` is supported. -/
theorem claim8_amended (chol : Mat d ℝ → Mat d ℝ) (A Q0inv Qinv : Mat d ℝ)
    (r_psi_sqrt : ℕ → Mat d ℝ) (m_psi : ℕ → Vec d ℝ) :
    post_z_means_checked chol 1 A Q0inv Qinv r_psi_sqrt m_psi =
      Except.error GraphError.tfInvalidArgument := by
  simp [post_z_means_checked, build_precision]

/-! ## Claim C9: rejection of T = 0 and d = 0 -/

/-- C9 counterexample: neither `T = 0` nor `d = 0` produces the postulated
`InvalidConfigurationError`: with `T = 0` the failure is the backend
`tf.tile` error raised during assembly (not an up-front configuration check),
and with `d = 0`, `T = 3` the endpoint succeeds outright. -/
theorem claim9_counterexample :
    post_z_means_checked (K := ℝ) (d := 1) id 0 !![1] !![1] !![1] (fun _ => !![1])
        (fun _ _ => 0) ≠ Except.error GraphError.invalidConfiguration ∧
      post_z_means_checked (K := ℝ) (d := 0) id 3 1 1 1 (fun _ => 1)
        (fun _ _ => 0) ≠ Except.error GraphError.invalidConfiguration := by
  constructor
  · simp [post_z_means_checked, build_precision]
  · simp [post_z_means_checked, build_precision]

/-- C9 amended: no `InvalidConfigurationError` exists in the code and no
up-front validation of `T` or `d` is performed: the posterior-mean endpoint
fails — with the backend `tfInvalidArgument` error raised inside the assembly
— exactly when `T < 2`, for every latent dimension `d`; in particular `d = 0`
is never rejected and `T = 0` is rejected only by the backend tile primitive,
not before computation. -/
theorem claim9_amended (T : ℕ) (chol : Mat d ℝ → Mat d ℝ) (A Q0inv Qinv : Mat d ℝ)
    (r_psi_sqrt : ℕ → Mat d ℝ) (m_psi : ℕ → Vec d ℝ) :
    (post_z_means_checked chol T A Q0inv Qinv r_psi_sqrt m_psi =
        Except.error GraphError.tfInvalidArgument ↔ T < 2) ∧
      (post_z_means_checked chol T A Q0inv Qinv r_psi_sqrt m_psi =
          Except.ok (post_z_means chol A Q0inv Qinv r_psi_sqrt m_psi T) ↔ 2 ≤ T) := by
  by_cases hT : 2 ≤ T
  · refine ⟨?_, ?_⟩
    · simp only [post_z_means_checked, build_precision, if_pos hT]
      constructor
      · intro h
        exact absurd h (by simp)
      · omega
    · simp [post_z_means_checked, build_precision, hT]
  · refine ⟨?_, ?_⟩
    · simp only [post_z_means_checked, build_precision, if_neg hT]
      constructor
      · intro _
        omega
      · intro _
        trivial
    · simp only [post_z_means_checked, build_precision, if_neg hT]
      constructor
      · intro h
        exact absurd h (by simp)
      · intro h
        exact absurd h hT

/-! ## Claim C4: the sampling routine is deterministic given the noise -/

/-- C4: the posterior sampling computation draws no randomness of its own:
it is a pure function of the dynamics parameters, the encoder outputs and the
caller-supplied standard-normal noise tensor, so two invocations on identical
inputs (in particular identical noise) return identical output, and that
output is `post_z_means + rands` where `rands` is the backward
block-triangular solve of the noise against the Cholesky factor. -/
theorem claim4 (chol : Mat d ℝ → Mat d ℝ) (A Q0inv Qinv : Mat d ℝ)
    (r_psi_sqrt : ℕ → Mat d ℝ) (m_psi : ℕ → Vec d ℝ) (T : ℕ)
    (noise₁ noise₂ : ℕ → Vec d ℝ) (h : noise₁ = noise₂) :
    post_z_samples chol A Q0inv Qinv r_psi_sqrt m_psi T noise₁ =
        post_z_samples chol A Q0inv Qinv r_psi_sqrt m_psi T noise₂ ∧
      post_z_samples chol A Q0inv Qinv r_psi_sqrt m_psi T noise₁ = fun t =>
        post_z_means chol A Q0inv Qinv r_psi_sqrt m_psi T t +
          post_rands chol A Q0inv Qinv r_psi_sqrt T noise₁ t := by
  subst h
  exact ⟨rfl, rfl⟩

/-- C4 witness at `d = 1`, `T = 2`, concrete parameters and noise. -/
theorem claim4_witness :
    ((fun _ : ℕ => (fun _ => 0 : Vec 1 ℝ)) = (fun _ : ℕ => (fun _ => 0 : Vec 1 ℝ))) ∧
      (post_z_samples (K := ℝ) (d := 1) (fun M => M) !![1] !![1] !![1] (fun _ => !![1])
          (fun _ _ => 1) 2 (fun _ _ => 0) =
          post_z_samples (K := ℝ) (d := 1) (fun M => M) !![1] !![1] !![1] (fun _ => !![1])
            (fun _ _ => 1) 2 (fun _ _ => 0) ∧
        post_z_samples (K := ℝ) (d := 1) (fun M => M) !![1] !![1] !![1] (fun _ => !![1])
            (fun _ _ => 1) 2 (fun _ _ => 0) = fun t =>
          post_z_means (K := ℝ) (d := 1) (fun M => M) !![1] !![1] !![1] (fun _ => !![1])
              (fun _ _ => 1) 2 t +
            post_rands (K := ℝ) (d := 1) (fun M => M) !![1] !![1] !![1] (fun _ => !![1]) 2
              (fun _ _ => 0) t) :=
  ⟨rfl, claim4 (fun M => M) !![1] !![1] !![1] (fun _ => !![1]) (fun _ _ => 1) 2
    (fun _ _ => 0) (fun _ _ => 0) rfl⟩

/-! ## Claim C10: the entropy ignores the data-dependent means -/

/-- C10: the entropy of the approximate posterior is a function of the
diagonal Cholesky blocks of the assembled precision matrix only; two batches
of encoder outputs with identical precision factors `r_psi_sqrt` (and
identical dynamics parameters) but arbitrary, possibly different, mean
contributions `m_psi` yield equal entropies. -/
theorem claim10 (chol : Mat d ℝ → Mat d ℝ) (A Q0inv Qinv : Mat d ℝ) (N T : ℕ)
    (m_psi₁ m_psi₂ : Fin N → ℕ → Vec d ℝ) (r_psi_sqrt : Fin N → ℕ → Mat d ℝ) :
    evaluate_entropy_of_data chol A Q0inv Qinv N T m_psi₁ r_psi_sqrt =
      evaluate_entropy_of_data chol A Q0inv Qinv N T m_psi₂ r_psi_sqrt := rfl

/-! ## Claim C5: the entropy formula -/

/-- C5: `evaluate_entropy` equals the batch average of
`0.5 · (−logdet S) + (T·d/2) · (1 + log 2π)` with
`logdet S = 2 Σ_t Σ_i log (C_t)_{ii}` computed per batch element. -/
theorem claim5 (N T : ℕ) (hN : 0 < N) (C : Fin N → ℕ → Mat d ℝ) :
    evaluate_entropy N T C =
      (∑ n : Fin N,
        (0.5 * -(2 * ∑ t : Fin T, ∑ i : Fin d, Real.log (C n t.val i i)) +
          (T : ℝ) * (d : ℝ) / 2 * (1 + Real.log (2 * Real.pi)))) / N := by
  have hNne : (N : ℝ) ≠ 0 := Nat.cast_ne_zero.mpr hN.ne'
  have hswap :
      ∑ t : Fin T, ∑ i : Fin d, ∑ n : Fin N, Real.log (C n t.val i i) =
        ∑ n : Fin N, ∑ t : Fin T, ∑ i : Fin d, Real.log (C n t.val i i) := by
    calc ∑ t : Fin T, ∑ i : Fin d, ∑ n : Fin N, Real.log (C n t.val i i)
        = ∑ t : Fin T, ∑ n : Fin N, ∑ i : Fin d, Real.log (C n t.val i i) :=
          Finset.sum_congr rfl fun t _ => Finset.sum_comm
      _ = ∑ n : Fin N, ∑ t : Fin T, ∑ i : Fin d, Real.log (C n t.val i i) :=
          Finset.sum_comm
  have h1 :
      ∑ t : Fin T, ∑ i : Fin d, (∑ n : Fin N, Real.log (C n t.val i i)) / N =
        (∑ n : Fin N, ∑ t : Fin T, ∑ i : Fin d, Real.log (C n t.val i i)) / N := by
    rw [← hswap, Finset.sum_div]
    exact Finset.sum_congr rfl fun t _ => (Finset.sum_div _ _ _).symm
  have h2 : ∀ n : Fin N,
      0.5 * -(2 * ∑ t : Fin T, ∑ i : Fin d, Real.log (C n t.val i i)) +
          (T : ℝ) * (d : ℝ) / 2 * (1 + Real.log (2 * Real.pi)) =
        -(∑ t : Fin T, ∑ i : Fin d, Real.log (C n t.val i i)) +
          (T : ℝ) * (d : ℝ) / 2 * (1 + Real.log (2 * Real.pi)) := fun n => by ring
  simp only [evaluate_entropy, h2]
  rw [Finset.sum_add_distrib, Finset.sum_const, Finset.card_univ, Fintype.card_fin,
    h1, Finset.sum_neg_distrib, nsmul_eq_mul]
  field_simp
  ring

/-- C5 witness at `N = 1`, `T = 1`, `d = 1`, `C ≡ 1`. -/
theorem claim5_witness :
    0 < 1 ∧
      evaluate_entropy 1 1 (fun _ _ => (1 : Mat 1 ℝ)) =
        (∑ n : Fin 1,
          (0.5 * -(2 * ∑ t : Fin 1, ∑ i : Fin 1,
              Real.log ((fun (_ : Fin 1) (_ : ℕ) => (1 : Mat 1 ℝ)) n t.val i i)) +
            (1 : ℝ) * (1 : ℝ) / 2 * (1 + Real.log (2 * Real.pi)))) / 1 :=
  ⟨Nat.one_pos, by
    have := claim5 1 1 Nat.one_pos (fun _ _ => (1 : Mat 1 ℝ))
    simpa using this⟩

end Netlds
